import Mathlib

/-! # SimpleVector over ArrayPtr

A shallow embedding of `array_ptr.h` and `simple_vector.h`.

* `size_t` is `Nat`: a block of `2^63` slots cannot be allocated, so the
  arithmetic of the source (`m_size + 1`, `2 * m_capacity`) never wraps on a
  vector that exists.
* `ArrayPtr P` holds one raw pointer, `nullptr` being `none`.  The vector
  instantiates `P` with `List T`: the pointer is identified with the block of
  slots it refers to.
* An iterator (`Type*`) of a vector is `nullptr` (`none`) or the start of the
  vector's block plus an offset (`some k`).
* `assert`, `throw` and an access outside the block are results of type `Fault`
  where the operation reports them.
* A reference parameter is an `Arg`: an object outside the vector, or a slot of
  the vector's own block.  A read through a reference to a slot of a block
  that has been deleted since is a `Fault`.
* `operator==` and `operator<` of the element type are the equality and the
  order of the values of `T`.
-/

/-- Ways in which an operation ends without a value. -/
inductive Fault where
  | out_of_range (what : String)
  | assertion
  | bad_access
  deriving DecidableEq, Repr

/-! ## array_ptr.h -/

/-- The class `ArrayPtr`: its only field is the raw pointer `raw_ptr_`. -/
structure ArrayPtr (P : Type) where
  raw_ptr_ : Option P
  deriving DecidableEq, Repr

namespace ArrayPtr

variable {P T : Type}

/-- Constructor `ArrayPtr() = default`: the null pointer. -/
def null : ArrayPtr P := ⟨none⟩

/-- Constructor `explicit ArrayPtr(size_t size)`: `new Type[size]{}` unless `size` is 0. -/
def ofSize [Inhabited T] (size : Nat) : ArrayPtr (List T) :=
  if 0 ≠ size then ⟨some (List.replicate size default)⟩ else ⟨none⟩

/-- Constructor `explicit ArrayPtr(Type* raw_ptr)`. -/
def ofRaw (raw_ptr : Option P) : ArrayPtr P := ⟨raw_ptr⟩

/-- Method `Get()`. -/
def Get (self : ArrayPtr P) : Option P := self.raw_ptr_

/-- Method `swap(ArrayPtr& other)`: the pair is (this, other) after the call. -/
def swap (self other : ArrayPtr P) : ArrayPtr P × ArrayPtr P :=
  (⟨other.raw_ptr_⟩, ⟨self.raw_ptr_⟩)

/-- Method `swap(ArrayPtr&& other)`: `raw_ptr_ = std::exchange(other.raw_ptr_, raw_ptr_)`. -/
def swapRv (self other : ArrayPtr P) : ArrayPtr P × ArrayPtr P :=
  let old := other.raw_ptr_
  let other := ArrayPtr.mk self.raw_ptr_
  (⟨old⟩, other)

/-- Copy constructor: a temporary built from `other.Get()` is swapped in. -/
def copyCtor (other : ArrayPtr P) : ArrayPtr P :=
  let tmp_vector := ofRaw other.Get
  (swap null tmp_vector).1

/-- Copy assignment: a temporary built from `other.Get()` is swapped in; the
temporary leaves with the former pointer of `self`. -/
def copyAssign (self other : ArrayPtr P) : ArrayPtr P :=
  let tmp_vector := ofRaw other.Get
  (swap self tmp_vector).1

/-- Move constructor: `raw_ptr_ = std::exchange(other.raw_ptr_, nullptr)`; the
pair is (this, other). -/
def moveCtor (other : ArrayPtr P) : ArrayPtr P × ArrayPtr P :=
  (⟨other.raw_ptr_⟩, ⟨none⟩)

/-- Move assignment: `raw_ptr_ = std::exchange(other.raw_ptr_, nullptr)`; the
pair is (this, other). -/
def moveAssign (_self other : ArrayPtr P) : ArrayPtr P × ArrayPtr P :=
  (⟨other.raw_ptr_⟩, ⟨none⟩)

/-- Method `Release()`: the pair is (returned pointer, this). -/
def Release (self : ArrayPtr P) : Option P × ArrayPtr P :=
  (self.raw_ptr_, ⟨none⟩)

/-- Operator `explicit operator bool()`. -/
def toBool (self : ArrayPtr P) : Bool := self.raw_ptr_.isSome

/-- Algorithm `std::exchange(obj, new_value)` on two `ArrayPtr` lvalues:
`T old = std::move(obj); obj = new_value; return old;`.  The pair is
(returned value, obj). -/
def exchange (obj new_value : ArrayPtr P) : ArrayPtr P × ArrayPtr P :=
  let (old, obj) := moveCtor obj
  let obj := copyAssign obj new_value
  (old, obj)

end ArrayPtr

/-! ## Pointers into a block and the algorithms of the standard library -/

/-- A `Type*` relative to one block: `nullptr` or block start plus offset. -/
abbrev Iterator := Option Nat

/-- An argument bound to a reference parameter (`const Type&` or `Type&&`) of
a method of a vector: an object outside the block of that vector (`value`), or
a slot of the vector's own block, given by the pointer to it (`element`), as
in `v.PushBack(v[0])`. -/
inductive Arg (T : Type) where
  | value (x : T)
  | element (it : Iterator)
  deriving DecidableEq, Repr

/-- Pointer plus `n` (`std::next`, `operator+`, `std::advance`). -/
def next (it : Iterator) (n : Nat) : Iterator := it.map (fun k => k + n)

/-- Pointer minus `n` (the `--it` of the backward algorithms). -/
def prev (it : Iterator) (n : Nat) : Iterator := it.map (fun k => k - n)

/-- Algorithm `std::distance(first, last)` for `first <= last`; two null pointers are
at distance 0. -/
def distance (first last : Iterator) : Nat :=
  match first, last with
  | some a, some b => b - a
  | _, _ => 0

/-- Pointer comparison `a <= b` (two null pointers compare equal). -/
def ptr_le (a b : Iterator) : Bool :=
  match a, b with
  | none, none => true
  | some x, some y => decide (x ≤ y)
  | _, _ => false

/-- Pointer comparison `a < b`. -/
def ptr_lt (a b : Iterator) : Bool :=
  match a, b with
  | some x, some y => decide (x < y)
  | _, _ => false

section Memory

variable {T : Type}

/-- The raw pointer of an `ArrayPtr` seen as an iterator. -/
def base (a : ArrayPtr (List T)) : Iterator :=
  match a.Get with
  | some _ => some 0
  | none => none

/-- Read `*it` in the block of `a`. -/
def load (a : ArrayPtr (List T)) (it : Iterator) : Option T :=
  match a.raw_ptr_, it with
  | some blk, some k => blk[k]?
  | _, _ => none

/-- Write `*it = x` in the block of `a`; outside the block nothing is written. -/
def store (a : ArrayPtr (List T)) (it : Iterator) (x : T) : ArrayPtr (List T) :=
  match a.raw_ptr_, it with
  | some blk, some k => ⟨some (blk.set k x)⟩
  | _, _ => a

/-- Read through a reference parameter.  The flag `freed` tells that the block
which the vector held when the reference was bound has been deleted since: a
reference to one of its slots then dangles, and the read is a fault. -/
def read_arg (freed : Bool) (a : ArrayPtr (List T)) (item : Arg T) : Except Fault T :=
  match item with
  | .value x => .ok x
  | .element it =>
    if freed then .error .bad_access
    else
      match load a it with
      | some x => .ok x
      | none => .error .bad_access

/-- Algorithm `std::exchange(item, Type())` through a reference parameter
(`T old = std::move(item); item = Type(); return old;`): the returned value,
the block and the argument after the call. -/
def exchange_arg [Inhabited T] (freed : Bool) (a : ArrayPtr (List T)) (item : Arg T) :
    Except Fault (T × ArrayPtr (List T) × Arg T) :=
  match item with
  | .value x => .ok (x, a, .value default)
  | .element it =>
    if freed then .error .bad_access
    else
      match load a it with
      | some x => .ok (x, store a it default, .element it)
      | none => .error .bad_access

/-- Algorithm `std::fill(first, first + count, value)`. -/
def std_fill (value : T) : Nat → Iterator → ArrayPtr (List T) → ArrayPtr (List T)
  | 0, _, a => a
  | n + 1, first, a => std_fill value n (next first 1) (store a first value)

/-- Algorithm `std::generate(first, first + count, g)`. -/
def std_generate (g : Unit → T) : Nat → Iterator → ArrayPtr (List T) → ArrayPtr (List T)
  | 0, _, a => a
  | n + 1, first, a => std_generate g n (next first 1) (store a first (g ()))

/-- Algorithm `std::copy(first, first + count, d_first)` from the block of `src` into
the block of `dst` (also through move iterators: the value is transferred). -/
def std_copy (src : ArrayPtr (List T)) :
    Nat → Iterator → Iterator → ArrayPtr (List T) → ArrayPtr (List T)
  | 0, _, _, dst => dst
  | n + 1, first, d_first, dst =>
    std_copy src n (next first 1) (next d_first 1)
      (match load src first with
       | some x => store dst d_first x
       | none => dst)

/-- Algorithm `std::copy_backward(first, first + count, d_last)` (also
`std::move_backward`) inside one block: `*(--d_last) = *(--last)` until
`first == last`. -/
def std_copy_backward :
    Nat → Iterator → Iterator → ArrayPtr (List T) → ArrayPtr (List T)
  | 0, _, _, a => a
  | n + 1, first, d_last, a =>
    let last := next first n
    let d_last := prev d_last 1
    std_copy_backward n first d_last
      (match load a last with
       | some x => store a d_last x
       | none => a)

/-- Algorithm `std::swap(*p, *q)` inside one block. -/
def swap_elems (a : ArrayPtr (List T)) (p q : Iterator) : ArrayPtr (List T) :=
  match load a p, load a q with
  | some x, some y => store (store a p y) q x
  | _, _ => a

/-- Algorithm `std::equal(first1, first1 + count, first2)`: the elements of the
first range are compared with `==` to those that start at `first2`; no end of
the second range is known to it.  A read outside a block is a fault. -/
def std_equal [DecidableEq T] (a b : ArrayPtr (List T)) :
    Nat → Iterator → Iterator → Except Fault Bool
  | 0, _, _ => .ok true
  | n + 1, first1, first2 =>
    match load a first1, load b first2 with
    | some x, some y =>
      if !(decide (x = y)) then .ok false
      else std_equal a b n (next first1 1) (next first2 1)
    | _, _ => .error .bad_access

/-- Algorithm `std::lexicographical_compare(first1, last1, first2, last2)`:
`for (; first1 != last1 && first2 != last2; ++first1, ++first2)` returns true
on `*first1 < *first2` and false on `*first2 < *first1`; after the loop the
result is `first1 == last1 && first2 != last2`.  The first argument bounds the
number of iterations; the caller passes the distance from `first1` to `last1`,
after which `first1 == last1`. -/
def std_lexicographical_compare [LT T] [DecidableRel (fun x y : T => x < y)]
    (a b : ArrayPtr (List T)) (last1 last2 : Iterator) :
    Nat → Iterator → Iterator → Except Fault Bool
  | 0, first1, first2 => .ok (decide (first1 = last1) && decide (first2 ≠ last2))
  | n + 1, first1, first2 =>
    if first1 ≠ last1 ∧ first2 ≠ last2 then
      match load a first1, load b first2 with
      | some x, some y =>
        if x < y then .ok true
        else if y < x then .ok false
        else std_lexicographical_compare a b last1 last2 n (next first1 1) (next first2 1)
      | _, _ => .error .bad_access
    else .ok (decide (first1 = last1) && decide (first2 ≠ last2))

/-- The values read by `for (it = first; it != first + count; ++it)` through
`*it`. -/
def read_range (a : ArrayPtr (List T)) : Nat → Iterator → Except Fault (List T)
  | 0, _ => .ok []
  | n + 1, it =>
    match load a it with
    | some x => (read_range a n (next it 1)).map (fun xs => x :: xs)
    | none => .error .bad_access

end Memory

/-! ## simple_vector.h -/

/-- The class `ReserveProxyObj`: it carries the capacity to reserve. -/
structure ReserveProxyObj where
  m_capacity_to_reserve : Nat
  deriving DecidableEq, Repr

/-- Method `GetReserve()`. -/
def ReserveProxyObj.GetReserve (self : ReserveProxyObj) : Nat := self.m_capacity_to_reserve

/-- The free function `Reserve(capacity_to_reserve)`. -/
def Reserve (capacity_to_reserve : Nat) : ReserveProxyObj := ⟨capacity_to_reserve⟩

/-- The class `SimpleVector`: the owned buffer, the size and the capacity. -/
structure SimpleVector (T : Type) where
  m_vector : ArrayPtr (List T)
  m_size : Nat
  m_capacity : Nat
  deriving DecidableEq, Repr

namespace SimpleVector

variable {T : Type}

/-- Constructor `SimpleVector() noexcept = default`. -/
def Default : SimpleVector T := ⟨ArrayPtr.null, 0, 0⟩

/-- Constructor `explicit SimpleVector(size_t size)`. -/
def Sized [Inhabited T] (size : Nat) : SimpleVector T :=
  let tmp_vector : ArrayPtr (List T) := ArrayPtr.ofSize size
  let tmp_vector := std_generate (fun _ => default) size (base tmp_vector) tmp_vector
  let m_vector := (ArrayPtr.swap ArrayPtr.null tmp_vector).1
  ⟨m_vector, size, size⟩

/-- Constructor `SimpleVector(size_t size, const Type& value)`. -/
def SizedWithValue [Inhabited T] (size : Nat) (value : T) : SimpleVector T :=
  let tmp_vector : ArrayPtr (List T) := ArrayPtr.ofSize size
  let tmp_vector := std_fill value size (base tmp_vector) tmp_vector
  let m_vector := (ArrayPtr.swap ArrayPtr.null tmp_vector).1
  ⟨m_vector, size, size⟩

/-- Constructor `SimpleVector(std::initializer_list<Type> init)`: the list is
an array of its own, read from its first element. -/
def FromList [Inhabited T] (init : List T) : SimpleVector T :=
  let size := init.length
  let tmp_vector : ArrayPtr (List T) := ArrayPtr.ofSize size
  let tmp_vector := std_copy ⟨some init⟩ init.length (some 0) (base tmp_vector) tmp_vector
  let m_vector := (ArrayPtr.swap ArrayPtr.null tmp_vector).1
  ⟨m_vector, size, size⟩

/-- Constructor `explicit SimpleVector(ReserveProxyObj obj)`. -/
def Reserving [Inhabited T] (obj : ReserveProxyObj) : SimpleVector T :=
  let capacity := obj.GetReserve
  let tmp_vector : ArrayPtr (List T) := ArrayPtr.ofSize capacity
  let tmp_vector := std_fill default capacity (base tmp_vector) tmp_vector
  let m_vector := (ArrayPtr.swap ArrayPtr.null tmp_vector).1
  ⟨m_vector, 0, capacity⟩

/-- Method `GetSize()`. -/
def GetSize (self : SimpleVector T) : Nat := self.m_size

/-- Method `GetCapacity()`. -/
def GetCapacity (self : SimpleVector T) : Nat := self.m_capacity

/-- Method `IsEmpty()`. -/
def IsEmpty (self : SimpleVector T) : Bool := decide (0 = self.m_size)

/-- Method `begin()`: null for an empty vector. -/
def begin_ (self : SimpleVector T) : Iterator :=
  if !self.IsEmpty then base self.m_vector else none

/-- Method `end()`: null for an empty vector. -/
def end_ (self : SimpleVector T) : Iterator :=
  if !self.IsEmpty then next (base self.m_vector) self.m_size else none

/-- Method `cbegin()`. -/
def cbegin (self : SimpleVector T) : Iterator := self.begin_

/-- Method `cend()`. -/
def cend (self : SimpleVector T) : Iterator := self.end_

/-- Operator `operator[](index)`, both overloads: `assert(index < m_size)` and then
`*(begin() + index)`. -/
def subscript (self : SimpleVector T) (index : Nat) : Except Fault T :=
  if index < self.m_size then
    match load self.m_vector (next self.begin_ index) with
    | some x => .ok x
    | none => .error .bad_access
  else .error .assertion

/-- Method `At(index)`, both overloads: the result and the vector after the call. -/
def At (self : SimpleVector T) (index : Nat) : Except Fault T × SimpleVector T :=
  if index ≥ self.GetSize then
    (.error (.out_of_range "out of range"), self)
  else
    match load self.m_vector (next self.begin_ index) with
    | some x => (.ok x, self)
    | none => (.error .bad_access, self)

/-- Method `Clear()`. -/
def Clear (self : SimpleVector T) : SimpleVector T :=
  { self with m_size := 0 }

/-- Method `swap(SimpleVector& other)`: the pair is (this, other). -/
def swap (self other : SimpleVector T) : SimpleVector T × SimpleVector T :=
  let (m_vector, o_vector) := self.m_vector.swap other.m_vector
  (⟨m_vector, other.m_size, other.m_capacity⟩, ⟨o_vector, self.m_size, self.m_capacity⟩)

/-- Method `swap(SimpleVector&& other)`: the pair is (this, other). -/
def swapRv (self other : SimpleVector T) : SimpleVector T × SimpleVector T :=
  let (m_vector, o_vector) := self.m_vector.swapRv other.m_vector
  -- other.m_size = std::exchange(m_size, other.m_size)
  let o_size := self.m_size
  let m_size := other.m_size
  let o_capacity := self.m_capacity
  let m_capacity := other.m_capacity
  (⟨m_vector, m_size, m_capacity⟩, ⟨o_vector, o_size, o_capacity⟩)

/-- Method `Resize(new_size)`. -/
def Resize [Inhabited T] (self : SimpleVector T) (new_size : Nat) : SimpleVector T :=
  if new_size ≤ self.m_size then
    { self with m_size := new_size }
  else
    let capacity :=
      if new_size ≤ self.m_capacity then self.m_capacity
      else max new_size (2 * self.m_capacity)
    let tmp_vector : SimpleVector T := Sized capacity
    let tmp_vector :=
      { tmp_vector with
        m_vector := std_copy self.m_vector (distance self.begin_ self.end_)
          self.begin_ tmp_vector.begin_ tmp_vector.m_vector }
    (self.swapRv tmp_vector).1

/-- Whether `Resize(new_size)` deletes the block that the vector held before
the call: the growing branch hands it to `tmp_vector` in `swap`, and the
destructor of `tmp_vector` deletes it when `Resize` returns; the truncating
branch keeps it. -/
def Resize_frees (self : SimpleVector T) (new_size : Nat) : Bool :=
  !decide (new_size ≤ self.m_size)

/-- Method `PushBack(const Type& item)`: the reference `item` is read in the
assignment, after `Resize`. -/
def PushBack [Inhabited T] (self : SimpleVector T) (item : Arg T) :
    Except Fault (SimpleVector T) :=
  let prev_size := self.m_size
  let freed := self.Resize_frees (self.m_size + 1)
  let self := self.Resize (self.m_size + 1)
  match read_arg freed self.m_vector item with
  | .error e => .error e
  | .ok x =>
    let self := { self with m_vector := store self.m_vector (next self.begin_ prev_size) x }
    .ok { self with m_size := prev_size + 1 }

/-- Method `PushBack(Type&& item)`: `std::exchange(item, Type())` reads and
overwrites the reference `item` after `Resize`; the pair is (this, item) after
the call. -/
def PushBackMove [Inhabited T] (self : SimpleVector T) (item : Arg T) :
    Except Fault (SimpleVector T × Arg T) :=
  let prev_size := self.m_size
  let freed := self.Resize_frees (self.m_size + 1)
  let self := self.Resize (self.m_size + 1)
  match exchange_arg freed self.m_vector item with
  | .error e => .error e
  | .ok (old, m_vector, item) =>
    let self := { self with m_vector := m_vector }
    let self := { self with m_vector := store self.m_vector (next self.begin_ prev_size) old }
    .ok ({ self with m_size := prev_size + 1 }, item)

/-- Method `PopBack()`. -/
def PopBack (self : SimpleVector T) : SimpleVector T :=
  if 0 ≠ self.m_size then { self with m_size := self.m_size - 1 } else self

/-- Method `Insert(ConstIterator pos, const Type& value)`: the reference
`value` is read in `*insert_pos = value`, after `Resize` and the shift; the
result is the returned iterator and the vector after the call. -/
def Insert [Inhabited T] (self : SimpleVector T) (pos : Iterator) (value : Arg T) :
    Except Fault (Iterator × SimpleVector T) :=
  if !(ptr_le self.begin_ pos && ptr_le pos self.end_) then .error .assertion
  else
    let prev_size := self.m_size
    let dist := distance self.begin_ pos
    let freed := self.Resize_frees (self.m_size + 1)
    let self := self.Resize (self.m_size + 1)
    let insert_pos := next self.begin_ dist
    let self :=
      { self with
        m_vector := std_copy_backward (distance insert_pos (next self.begin_ prev_size))
          insert_pos (next self.begin_ (prev_size + 1)) self.m_vector }
    match read_arg freed self.m_vector value with
    | .error e => .error e
    | .ok x =>
      let self := { self with m_vector := store self.m_vector insert_pos x }
      let self := { self with m_size := prev_size + 1 }
      .ok (insert_pos, self)

/-- Method `Insert(ConstIterator pos, Type&& value)`:
`std::exchange(value, Type())` reads and overwrites the reference `value` after
`Resize` and the shift; the result is the returned iterator, the vector and
`value` after the call. -/
def InsertMove [Inhabited T] (self : SimpleVector T) (pos : Iterator) (value : Arg T) :
    Except Fault (Iterator × SimpleVector T × Arg T) :=
  if !(ptr_le self.begin_ pos && ptr_le pos self.end_) then .error .assertion
  else
    let prev_size := self.m_size
    let dist := distance self.begin_ pos
    let freed := self.Resize_frees (self.m_size + 1)
    let self := self.Resize (self.m_size + 1)
    let insert_pos := next self.begin_ dist
    let self :=
      { self with
        m_vector := std_copy_backward (distance insert_pos (next self.begin_ prev_size))
          insert_pos (next self.begin_ (prev_size + 1)) self.m_vector }
    match exchange_arg freed self.m_vector value with
    | .error e => .error e
    | .ok (old, m_vector, value) =>
      let self := { self with m_vector := m_vector }
      let self := { self with m_vector := store self.m_vector insert_pos old }
      let self := { self with m_size := prev_size + 1 }
      .ok (insert_pos, self, value)

/-- The loop of `Erase`:
`for (it = pos + 1; it != end(); it++) { swap(*pos_copy, *it); advance(pos_copy, 1); }`.
The first argument bounds the number of iterations; `Erase` passes the
distance from `pos + 1` to `end()`, after which `it == end()`. -/
def Erase_loop (end_ : Iterator) :
    Nat → Iterator → Iterator → ArrayPtr (List T) → ArrayPtr (List T)
  | 0, _, _, a => a
  | n + 1, pos_copy, it, a =>
    if it = end_ then a
    else Erase_loop end_ n (next pos_copy 1) (next it 1) (swap_elems a pos_copy it)

/-- Method `Erase(ConstIterator pos)`: the returned iterator and the vector after
the call. -/
def Erase (self : SimpleVector T) (pos : Iterator) :
    Except Fault (Iterator × SimpleVector T) :=
  if !(ptr_le self.begin_ pos && ptr_lt pos self.end_) then .error .assertion
  else
    let pos_copy := pos
    let self :=
      { self with
        m_vector := Erase_loop self.end_ (distance (next pos 1) self.end_)
          pos_copy (next pos 1) self.m_vector }
    let self := { self with m_size := self.m_size - 1 }
    if 0 = self.m_size then .ok (none, self)
    else .ok (pos, self)

/-- Constructor `SimpleVector(const SimpleVector& other)`: the pair is (this, other). -/
def CopyCtor [Inhabited T] (other : SimpleVector T) : SimpleVector T × SimpleVector T :=
  let tmp_vector : ArrayPtr (List T) := ArrayPtr.ofSize other.GetCapacity
  let tmp_vector := std_copy other.m_vector (distance other.begin_ other.end_)
    other.begin_ (base tmp_vector) tmp_vector
  let m_vector := (ArrayPtr.swap ArrayPtr.null tmp_vector).1
  (⟨m_vector, other.GetSize, other.GetCapacity⟩, other)

/-- Operator `operator=(const SimpleVector& rhs)`: the pair is (this, rhs), for
`rhs` an object other than `*this` (in `v = v` the one object is the first
component). -/
def CopyAssign [Inhabited T] (self rhs : SimpleVector T) : SimpleVector T × SimpleVector T :=
  let tmp_vector : ArrayPtr (List T) := ArrayPtr.ofSize rhs.GetCapacity
  let tmp_vector := std_copy rhs.m_vector (distance rhs.begin_ rhs.end_)
    rhs.begin_ (base tmp_vector) tmp_vector
  let m_vector := (self.m_vector.swap tmp_vector).1
  (⟨m_vector, rhs.GetSize, rhs.GetCapacity⟩, rhs)

/-- The three `std::exchange` lines shared by the move constructor and the
move assignment: the pair is (this, other). -/
def exchange_members (self other : SimpleVector T) : SimpleVector T × SimpleVector T :=
  -- m_vector = std::exchange(other.m_vector, m_vector)
  let (ret, o_vector) := ArrayPtr.exchange other.m_vector self.m_vector
  let (m_vector, _) := self.m_vector.moveAssign ret
  -- m_size = std::exchange(other.m_size, m_size)
  let o_size := self.m_size
  let m_size := other.m_size
  -- m_capacity = std::exchange(other.m_capacity, m_capacity)
  let o_capacity := self.m_capacity
  let m_capacity := other.m_capacity
  (⟨m_vector, m_size, m_capacity⟩, ⟨o_vector, o_size, o_capacity⟩)

/-- Constructor `SimpleVector(SimpleVector&& other)`: the members start from their default
initialisers; the pair is (this, other). -/
def MoveCtor (other : SimpleVector T) : SimpleVector T × SimpleVector T :=
  exchange_members Default other

/-- Operator `operator=(SimpleVector&& rhs)`: the pair is (this, rhs). -/
def MoveAssign (self rhs : SimpleVector T) : SimpleVector T × SimpleVector T :=
  exchange_members self rhs

/-- Method `Reserve(new_capacity)`. -/
def Reserve [Inhabited T] (self : SimpleVector T) (new_capacity : Nat) : SimpleVector T :=
  if self.m_capacity < new_capacity then
    let tmp_vector : ArrayPtr (List T) := ArrayPtr.ofSize new_capacity
    let tmp_vector := std_copy self.m_vector (distance self.begin_ self.end_)
      self.begin_ (base tmp_vector) tmp_vector
    let m_vector := (self.m_vector.swap tmp_vector).1
    { self with m_vector := m_vector, m_capacity := new_capacity }
  else self

/-- Operator `operator==`: `std::equal(lhs.begin(), lhs.end(), rhs.begin())`. -/
def operator_eq [DecidableEq T] (lhs rhs : SimpleVector T) : Except Fault Bool :=
  std_equal lhs.m_vector rhs.m_vector (distance lhs.begin_ lhs.end_) lhs.begin_ rhs.begin_

/-- Operator `operator!=`: `!(lhs == rhs)`. -/
def operator_ne [DecidableEq T] (lhs rhs : SimpleVector T) : Except Fault Bool :=
  (operator_eq lhs rhs).map (fun b => !b)

/-- Operator `operator<`:
`std::lexicographical_compare(lhs.begin(), lhs.end(), rhs.begin(), rhs.end())`. -/
def operator_lt [LT T] [DecidableRel (fun x y : T => x < y)] (lhs rhs : SimpleVector T) :
    Except Fault Bool :=
  std_lexicographical_compare lhs.m_vector rhs.m_vector lhs.end_ rhs.end_
    (distance lhs.begin_ lhs.end_) lhs.begin_ rhs.begin_

/-- Operator `operator<=`: `!(rhs < lhs)`. -/
def operator_le [LT T] [DecidableRel (fun x y : T => x < y)] (lhs rhs : SimpleVector T) :
    Except Fault Bool :=
  (operator_lt rhs lhs).map (fun b => !b)

/-- Operator `operator>`: `rhs < lhs`. -/
def operator_gt [LT T] [DecidableRel (fun x y : T => x < y)] (lhs rhs : SimpleVector T) :
    Except Fault Bool :=
  operator_lt rhs lhs

/-- Operator `operator>=`: `!(lhs < rhs)`. -/
def operator_ge [LT T] [DecidableRel (fun x y : T => x < y)] (lhs rhs : SimpleVector T) :
    Except Fault Bool :=
  (operator_lt lhs rhs).map (fun b => !b)

/-- The values met by `for (auto it = v.begin(); it != v.end(); ++it)`. -/
def Iterate (self : SimpleVector T) : Except Fault (List T) :=
  read_range self.m_vector (distance self.begin_ self.end_) self.begin_

/-- The loop of the test driver, `for (...) v.PushBack(x)`, on a
default-constructed vector: the values of `xs`, objects outside the vector,
are pushed in order. -/
def PushBackAll [Inhabited T] (xs : List T) : Except Fault (SimpleVector T) :=
  xs.foldlM (fun v x => v.PushBack (.value x)) Default

/-- The slots of the owned block, none when the pointer is null. -/
def slots (self : SimpleVector T) : List T := self.m_vector.raw_ptr_.getD []

/-- The logical contents: the slots at the indices `[0, m_size)`. -/
def toList (self : SimpleVector T) : List T := self.slots.take self.m_size

/-- The class invariant: `m_size <= m_capacity`, and the block has exactly
`m_capacity` slots, a null pointer standing for capacity 0. -/
def WF (self : SimpleVector T) : Prop :=
  self.m_size ≤ self.m_capacity ∧ self.slots.length = self.m_capacity ∧
    (self.m_vector.raw_ptr_.isSome = true ↔ self.m_capacity ≠ 0)

instance (self : SimpleVector T) : Decidable self.WF := by
  unfold WF; infer_instance

/-- The vectors that a program can hold: those produced by a constructor and
then by any sequence of public operations, each counting when it returns
(`Insert` and `Erase` when their position assertion passes, `PushBack` and
`Insert` when the read of their argument is not a fault). -/
inductive Reachable [Inhabited T] : SimpleVector T → Prop where
  | default_ctor : Reachable Default
  | sized (size : Nat) : Reachable (Sized size)
  | sized_with_value (size : Nat) (value : T) : Reachable (SizedWithValue size value)
  | from_list (init : List T) : Reachable (FromList init)
  | reserving (obj : ReserveProxyObj) : Reachable (Reserving obj)
  | copy_ctor {other : SimpleVector T} : Reachable other → Reachable (CopyCtor other).1
  | move_ctor {other : SimpleVector T} : Reachable other → Reachable (MoveCtor other).1
  | move_ctor_source {other : SimpleVector T} : Reachable other → Reachable (MoveCtor other).2
  | copy_assign {self rhs : SimpleVector T} :
      Reachable self → Reachable rhs → Reachable (CopyAssign self rhs).1
  | move_assign {self rhs : SimpleVector T} :
      Reachable self → Reachable rhs → Reachable (MoveAssign self rhs).1
  | move_assign_source {self rhs : SimpleVector T} :
      Reachable self → Reachable rhs → Reachable (MoveAssign self rhs).2
  | clear {v : SimpleVector T} : Reachable v → Reachable v.Clear
  | resize {v : SimpleVector T} (new_size : Nat) : Reachable v → Reachable (v.Resize new_size)
  | reserve {v : SimpleVector T} (new_capacity : Nat) :
      Reachable v → Reachable (v.Reserve new_capacity)
  | push_back {v v2 : SimpleVector T} {item : Arg T} :
      Reachable v → v.PushBack item = .ok v2 → Reachable v2
  | push_back_move {v v2 : SimpleVector T} {item moved : Arg T} :
      Reachable v → v.PushBackMove item = .ok (v2, moved) → Reachable v2
  | insert {v v2 : SimpleVector T} {pos it : Iterator} {value : Arg T} :
      Reachable v → v.Insert pos value = .ok (it, v2) → Reachable v2
  | insert_move {v v2 : SimpleVector T} {pos it : Iterator} {value moved : Arg T} :
      Reachable v → v.InsertMove pos value = .ok (it, v2, moved) → Reachable v2
  | pop_back {v : SimpleVector T} : Reachable v → Reachable v.PopBack
  | erase {v v2 : SimpleVector T} {pos it : Iterator} :
      Reachable v → v.Erase pos = .ok (it, v2) → Reachable v2
  | swap {v other : SimpleVector T} :
      Reachable v → Reachable other → Reachable (v.swap other).1
  | swap_other {v other : SimpleVector T} :
      Reachable v → Reachable other → Reachable (v.swap other).2
  | swap_rv {v other : SimpleVector T} :
      Reachable v → Reachable other → Reachable (v.swapRv other).1
  | swap_rv_other {v other : SimpleVector T} :
      Reachable v → Reachable other → Reachable (v.swapRv other).2

end SimpleVector

/-! ## Lemmas on the owning pointer -/

namespace ArrayPtr

/-- Both copy operations of `ArrayPtr` hand the raw pointer of the source to
the target: nothing is allocated and nothing is copied. -/
theorem copy_keeps_pointer {P : Type} (self other : ArrayPtr P) :
    (copyCtor other).Get = other.Get ∧ (copyAssign self other).Get = other.Get :=
  ⟨rfl, rfl⟩

/-- C19 at a failing input: the copy of an `ArrayPtr` that holds the block at
address 4096, by the copy constructor or by the copy assignment, holds the
same address 4096 as the source. -/
theorem copy_at_failing_input :
    (copyCtor (⟨some 4096⟩ : ArrayPtr Nat)).Get = some 4096 ∧
    (copyCtor (⟨some 4096⟩ : ArrayPtr Nat)).Get = (⟨some 4096⟩ : ArrayPtr Nat).Get ∧
    (copyAssign null (⟨some 4096⟩ : ArrayPtr Nat)).Get = some 4096 ∧
    (copyAssign null (⟨some 4096⟩ : ArrayPtr Nat)).Get = (⟨some 4096⟩ : ArrayPtr Nat).Get := by
  decide

end ArrayPtr

/-! ## Lemmas on the memory operations -/

section MemoryLemmas

variable {T : Type}

theorem next_some (k n : Nat) : next (some k) n = some (k + n) := rfl

theorem next_none (n : Nat) : next none n = none := rfl

theorem prev_some (k n : Nat) : prev (some k) n = some (k - n) := rfl

theorem load_block (blk : List T) (k : Nat) : load ⟨some blk⟩ (some k) = blk[k]? := rfl

theorem store_block (blk : List T) (k : Nat) (x : T) :
    store ⟨some blk⟩ (some k) x = ⟨some (blk.set k x)⟩ := rfl

theorem store_null (it : Iterator) (x : T) : store (⟨none⟩ : ArrayPtr (List T)) it x = ⟨none⟩ := rfl

theorem set_replicate_same (n k : Nat) (d : T) :
    (List.replicate n d).set k d = List.replicate n d := by
  apply List.ext_getElem?
  intro j
  rw [List.getElem?_set]
  split
  · next h =>
    subst h
    split
    · next h2 => simp at h2; simp [h2]
    · next h2 => simp at h2; simp [h2]
  · rfl

theorem std_generate_replicate (d : T) (g : Unit → T) (hg : g () = d) (n : Nat) :
    ∀ (count : Nat) (first : Iterator),
      std_generate g count first ⟨some (List.replicate n d)⟩ = ⟨some (List.replicate n d)⟩ := by
  intro count
  induction count with
  | zero => intro first; rfl
  | succ c ih =>
    intro first
    cases first with
    | none => simpa [std_generate, store, next] using ih none
    | some k =>
      simp only [std_generate, store_block, hg, set_replicate_same, next_some]
      exact ih _

theorem std_generate_null (g : Unit → T) :
    ∀ (count : Nat) (first : Iterator),
      std_generate g count first (⟨none⟩ : ArrayPtr (List T)) = ⟨none⟩ := by
  intro count
  induction count with
  | zero => intro first; rfl
  | succ c ih => intro first; simp only [std_generate, store_null]; exact ih _

theorem copy_step_eq (s t : List T) (a d n : Nat) (hd : d + (n + 1) ≤ t.length) (x : T)
    (hx : s[a]? = some x) :
    List.take (d + 1) (t.set d x) ++ List.take n (List.drop (a + 1) s) ++
        List.drop (d + 1 + n) (t.set d x)
      = List.take d t ++ List.take (n + 1) (List.drop a s) ++ List.drop (d + (n + 1)) t := by
  have hdl : d < t.length := by omega
  have h1 : List.take (d + 1) (t.set d x) = List.take d t ++ [x] := by
    rw [List.take_add_one, List.set_take, List.set_eq_of_length_le (by simp)]
    simp [hdl]
  have h2 : List.drop (d + 1 + n) (t.set d x) = List.drop (d + (n + 1)) t := by
    rw [List.drop_set_of_lt _ _ (by omega)]
    congr 1
    omega
  have h3 : List.take (n + 1) (List.drop a s) = x :: List.take n (List.drop (a + 1) s) := by
    rw [List.drop_eq_getElem?_toList_append, hx]
    simp
  rw [h1, h2, h3]
  simp

/-- Copying `n` slots between two blocks, when both ranges are inside. -/
theorem std_copy_block (s : List T) :
    ∀ (n a d : Nat) (t : List T), a + n ≤ s.length → d + n ≤ t.length →
      std_copy ⟨some s⟩ n (some a) (some d) ⟨some t⟩
        = ⟨some (t.take d ++ (s.drop a).take n ++ t.drop (d + n))⟩ := by
  intro n
  induction n with
  | zero => intro a d t _ _; simp [std_copy]
  | succ n ih =>
    intro a d t ha hd
    have hlt : a < s.length := by omega
    have hx : s[a]? = some s[a] := List.getElem?_eq_getElem hlt
    simp only [std_copy, load_block, hx, store_block, next_some]
    rw [ih (a + 1) (d + 1) (t.set d s[a]) (by omega) (by simp; omega)]
    rw [copy_step_eq s t a d n hd s[a] hx]

theorem backward_step_eq (blk : List T) (i n : Nat) (h : i + (n + 1) + 1 ≤ blk.length) (x : T)
    (hx : blk[i + n]? = some x) :
    List.take (i + 1) (blk.set (i + n + 1) x) ++ List.take n (List.drop i (blk.set (i + n + 1) x)) ++
        List.drop (i + n + 1) (blk.set (i + n + 1) x)
      = List.take (i + 1) blk ++ List.take (n + 1) (List.drop i blk) ++
        List.drop (i + (n + 1) + 1) blk := by
  have h1 : List.take (i + 1) (blk.set (i + n + 1) x) = List.take (i + 1) blk := by
    rw [List.set_take, List.set_eq_of_length_le (by simp)]
  have h2 : List.take n (List.drop i (blk.set (i + n + 1) x)) = List.take n (List.drop i blk) := by
    rw [List.drop_set, if_neg (by omega), List.set_take, List.set_eq_of_length_le (by simp; omega)]
  have h3 : List.drop (i + n + 1) (blk.set (i + n + 1) x) = x :: List.drop (i + (n + 1) + 1) blk := by
    rw [List.drop_eq_getElem?_toList_append]
    rw [List.getElem?_set_self (by omega), List.drop_set_of_lt _ _ (by omega)]
    rfl
  have h4 : List.take (n + 1) (List.drop i blk) = List.take n (List.drop i blk) ++ [x] := by
    rw [List.take_add_one, List.getElem?_drop, hx]
    rfl
  rw [h1, h2, h3, h4]
  simp

theorem std_copy_backward_block :
    ∀ (n i : Nat) (blk : List T), i + n + 1 ≤ blk.length →
      std_copy_backward n (some i) (some (i + n + 1)) ⟨some blk⟩
        = ⟨some (blk.take (i + 1) ++ (blk.drop i).take n ++ blk.drop (i + n + 1))⟩ := by
  intro n
  induction n with
  | zero => intro i blk _; simp [std_copy_backward]
  | succ n ih =>
    intro i blk h
    obtain ⟨x, hx⟩ : ∃ x, blk[i + n]? = some x := ⟨_, List.getElem?_eq_getElem (by omega)⟩
    simp only [std_copy_backward, load_block, hx, store_block, next_some, prev_some]
    have e : i + (n + 1) + 1 - 1 = i + n + 1 := by omega
    rw [e, ih i _ (by simp; omega)]
    rw [backward_step_eq blk i n h _ hx]

theorem erase_step_eq (blk : List T) (p n : Nat) (h : p + 1 + (n + 1) ≤ blk.length) (x y : T)
    (hx : blk[p]? = some x) (hy : blk[p + 1]? = some y) :
    List.take (p + 1) ((blk.set p y).set (p + 1) x) ++
        List.take n (List.drop (p + 1 + 1) ((blk.set p y).set (p + 1) x)) ++
        ((blk.set p y).set (p + 1) x)[p + 1]?.toList ++
        List.drop (p + 1 + n + 1) ((blk.set p y).set (p + 1) x)
      = List.take p blk ++ List.take (n + 1) (List.drop (p + 1) blk) ++ blk[p]?.toList ++
        List.drop (p + (n + 1) + 1) blk := by
  have h1 : List.take (p + 1) ((blk.set p y).set (p + 1) x) = List.take p blk ++ [y] := by
    rw [List.set_take, List.set_eq_of_length_le (by simp), List.take_add_one,
      List.set_take, List.set_eq_of_length_le (by simp)]
    rw [List.getElem?_set_self (by omega)]
    rfl
  have h2 : List.drop (p + 1 + 1) ((blk.set p y).set (p + 1) x) = List.drop (p + 1 + 1) blk := by
    rw [List.drop_set_of_lt _ _ (by omega), List.drop_set_of_lt _ _ (by omega)]
  have h3 : ((blk.set p y).set (p + 1) x)[p + 1]? = some x := by
    rw [List.getElem?_set_self (by simp; omega)]
  have h4 : List.drop (p + 1 + n + 1) ((blk.set p y).set (p + 1) x)
      = List.drop (p + (n + 1) + 1) blk := by
    rw [List.drop_set_of_lt _ _ (by omega), List.drop_set_of_lt _ _ (by omega)]
    congr 1; omega
  have h5 : List.take (n + 1) (List.drop (p + 1) blk) = y :: List.take n (List.drop (p + 1 + 1) blk) := by
    rw [List.drop_eq_getElem?_toList_append, hy]
    rfl
  rw [h1, h2, h3, h4, h5, hx]
  simp

theorem Erase_loop_block :
    ∀ (n p : Nat) (blk : List T), p + 1 + n ≤ blk.length →
      SimpleVector.Erase_loop (some (p + 1 + n)) n (some p) (some (p + 1)) ⟨some blk⟩
        = ⟨some (blk.take p ++ (blk.drop (p + 1)).take n ++ blk[p]?.toList
            ++ blk.drop (p + n + 1))⟩ := by
  intro n
  induction n with
  | zero =>
    intro p blk h
    simp only [SimpleVector.Erase_loop, List.take_zero, List.append_nil, List.append_assoc]
    rw [← List.drop_eq_getElem?_toList_append, List.take_append_drop]
  | succ n ih =>
    intro p blk h
    obtain ⟨x, hx⟩ : ∃ x, blk[p]? = some x := ⟨_, List.getElem?_eq_getElem (by omega)⟩
    obtain ⟨y, hy⟩ : ∃ y, blk[p + 1]? = some y := ⟨_, List.getElem?_eq_getElem (by omega)⟩
    have hne : ¬ ((some (p + 1) : Iterator) = some (p + 1 + (n + 1))) := by
      simp
    simp only [SimpleVector.Erase_loop, hne, if_false, swap_elems, load_block, hx, hy, store_block,
      next_some]
    have key := ih (p + 1) ((blk.set p y).set (p + 1) x) (by simp; omega)
    rw [show p + 1 + 1 + n = p + 1 + (n + 1) by omega] at key
    rw [key, erase_step_eq blk p n h _ _ hx hy, hx]

theorem fill_step_eq (blk : List T) (k c : Nat) (v : T) (h : k + (c + 1) ≤ blk.length) :
    List.take (k + 1) (blk.set k v) ++ List.replicate c v ++ List.drop (k + 1 + c) (blk.set k v)
      = List.take k blk ++ List.replicate (c + 1) v ++ List.drop (k + (c + 1)) blk := by
  have hk : k < blk.length := by omega
  have h1 : List.take (k + 1) (blk.set k v) = List.take k blk ++ [v] := by
    rw [List.take_add_one, List.set_take, List.set_eq_of_length_le (by simp)]
    simp [hk]
  have h2 : List.drop (k + 1 + c) (blk.set k v) = List.drop (k + (c + 1)) blk := by
    rw [List.drop_set_of_lt _ _ (by omega)]
    congr 1
    omega
  rw [h1, h2, List.replicate_succ]
  simp

/-- Filling `count` slots of a block from offset `k`, the range being inside. -/
theorem std_fill_block (v : T) :
    ∀ (count k : Nat) (blk : List T), k + count ≤ blk.length →
      std_fill v count (some k) ⟨some blk⟩
        = ⟨some (blk.take k ++ List.replicate count v ++ blk.drop (k + count))⟩ := by
  intro count
  induction count with
  | zero => intro k blk _; simp [std_fill]
  | succ c ih =>
    intro k blk h
    simp only [std_fill, store_block, next_some]
    rw [ih (k + 1) (blk.set k v) (by simp; omega), fill_step_eq blk k c v h]

theorem std_fill_null (v : T) :
    ∀ (count : Nat) (first : Iterator),
      std_fill v count first (⟨none⟩ : ArrayPtr (List T)) = ⟨none⟩ := by
  intro count
  induction count with
  | zero => intro first; rfl
  | succ c ih => intro first; simp only [std_fill, store_null]; exact ih _

/-- Reading `n` slots of a block from offset `k`, the range being inside. -/
theorem read_range_block :
    ∀ (n k : Nat) (blk : List T), k + n ≤ blk.length →
      read_range ⟨some blk⟩ n (some k) = .ok ((blk.drop k).take n) := by
  intro n
  induction n with
  | zero => intro k blk _; simp [read_range]
  | succ n ih =>
    intro k blk h
    obtain ⟨x, hx⟩ : ∃ x, blk[k]? = some x := ⟨_, List.getElem?_eq_getElem (by omega)⟩
    simp only [read_range, load_block, hx, next_some]
    rw [ih (k + 1) blk (by omega)]
    rw [List.drop_eq_getElem?_toList_append (n := k), hx]
    rfl

/-- Comparing `n` slots of two blocks, both ranges being inside. -/
theorem std_equal_block [DecidableEq T] (s t : List T) :
    ∀ (n i j : Nat), i + n ≤ s.length → j + n ≤ t.length →
      std_equal ⟨some s⟩ ⟨some t⟩ n (some i) (some j)
        = .ok (decide ((s.drop i).take n = (t.drop j).take n)) := by
  intro n
  induction n with
  | zero => intro i j _ _; simp [std_equal]
  | succ n ih =>
    intro i j hi hj
    obtain ⟨x, hx⟩ : ∃ x, s[i]? = some x := ⟨_, List.getElem?_eq_getElem (by omega)⟩
    obtain ⟨y, hy⟩ : ∃ y, t[j]? = some y := ⟨_, List.getElem?_eq_getElem (by omega)⟩
    have e1 : (s.drop i).take (n + 1) = x :: (s.drop (i + 1)).take n := by
      rw [List.drop_eq_getElem?_toList_append (n := i), hx]; rfl
    have e2 : (t.drop j).take (n + 1) = y :: (t.drop (j + 1)).take n := by
      rw [List.drop_eq_getElem?_toList_append (n := j), hy]; rfl
    simp only [std_equal, load_block, hx, hy, next_some]
    rw [e1, e2]
    by_cases hxy : x = y
    · subst hxy
      simp only [decide_True, Bool.not_true, Bool.false_eq_true, if_false]
      rw [ih (i + 1) (j + 1) (by omega) (by omega)]
      simp
    · simp [hxy]

theorem drop_take_cons (s : List T) (n i : Nat) (x : T) (hi : i < n) (hx : s[i]? = some x) :
    (s.take n).drop i = x :: (s.take n).drop (i + 1) := by
  rw [List.drop_eq_getElem?_toList_append (n := i), List.getElem?_take_of_lt hi, hx]
  rfl

/-- The lexicographic comparison of the slots `[i, n1)` of one block with the
slots `[j, n2)` of another. -/
theorem std_lexicographical_compare_block [LinearOrder T] (s t : List T) (n1 n2 : Nat)
    (h1 : n1 ≤ s.length) (h2 : n2 ≤ t.length) :
    ∀ (fuel i j : Nat), fuel = n1 - i → i ≤ n1 → j ≤ n2 →
      ∃ b, std_lexicographical_compare ⟨some s⟩ ⟨some t⟩ (some n1) (some n2) fuel
          (some i) (some j) = .ok b ∧
        (b = true ↔ List.Lex (fun x y => x < y) ((s.take n1).drop i) ((t.take n2).drop j)) := by
  intro fuel
  induction fuel with
  | zero =>
    intro i j hf hi hj
    have hin : i = n1 := by omega
    subst hin
    refine ⟨_, rfl, ?_⟩
    have e1 : (s.take i).drop i = [] := by
      apply List.drop_of_length_le
      simp
    rw [e1]
    by_cases hjn : j = n2
    · subst hjn
      have e2 : (t.take j).drop j = [] := by
        apply List.drop_of_length_le
        simp
      rw [e2]
      simp
    · obtain ⟨y, hy⟩ : ∃ y, t[j]? = some y := ⟨_, List.getElem?_eq_getElem (by omega)⟩
      rw [drop_take_cons t n2 j y (by omega) hy]
      simp [hjn, List.Lex.nil]
  | succ fuel ih =>
    intro i j hf hi hj
    have hin : i < n1 := by omega
    obtain ⟨x, hx⟩ : ∃ x, s[i]? = some x := ⟨_, List.getElem?_eq_getElem (by omega)⟩
    rw [drop_take_cons s n1 i x hin hx]
    by_cases hjn : j = n2
    · subst hjn
      have e2 : (t.take j).drop j = [] := by
        apply List.drop_of_length_le
        simp
      rw [e2]
      refine ⟨false, ?_, ?_⟩
      · simp only [std_lexicographical_compare]
        rw [if_neg (by simp)]
        have : ¬ ((some i : Iterator) = some n1) := by simp; omega
        simp [this]
      · simp [List.Lex.not_nil_right]
    · obtain ⟨y, hy⟩ : ∃ y, t[j]? = some y := ⟨_, List.getElem?_eq_getElem (by omega)⟩
      rw [drop_take_cons t n2 j y (by omega) hy]
      have hg : (some i : Iterator) ≠ some n1 ∧ (some j : Iterator) ≠ some n2 := by
        constructor
        · simp; omega
        · simp; exact hjn
      simp only [std_lexicographical_compare, if_pos hg, load_block, hx, hy, next_some]
      by_cases hxy : x < y
      · rw [if_pos hxy]
        exact ⟨true, rfl, by simp [List.Lex.rel hxy]⟩
      · rw [if_neg hxy]
        by_cases hyx : y < x
        · rw [if_pos hyx]
          refine ⟨false, rfl, ?_⟩
          simp only [Bool.false_eq_true, false_iff]
          intro hlex
          cases hlex with
          | cons h => exact absurd hyx (lt_irrefl _)
          | rel h => exact hxy h
        · rw [if_neg hyx]
          have hxe : x = y := le_antisymm (not_lt.1 hyx) (not_lt.1 hxy)
          subst hxe
          obtain ⟨b, hb, hiff⟩ := ih (i + 1) (j + 1) (by omega) (by omega) (by omega)
          refine ⟨b, hb, ?_⟩
          rw [hiff]
          exact (List.Lex.cons_iff).symm

/-- A write keeps the pointer and the number of slots of the block. -/
theorem store_shape (a : ArrayPtr (List T)) (it : Iterator) (x : T) :
    (store a it x).raw_ptr_.map List.length = a.raw_ptr_.map List.length := by
  obtain ⟨raw⟩ := a
  cases raw with
  | none => rfl
  | some blk =>
    cases it with
    | none => rfl
    | some k => simp [store]

theorem std_copy_backward_shape :
    ∀ (n : Nat) (first d_last : Iterator) (a : ArrayPtr (List T)),
      (std_copy_backward n first d_last a).raw_ptr_.map List.length
        = a.raw_ptr_.map List.length := by
  intro n
  induction n with
  | zero => intro _ _ _; rfl
  | succ n ih =>
    intro first d_last a
    simp only [std_copy_backward]
    rw [ih]
    split
    · exact store_shape _ _ _
    · rfl

theorem swap_elems_shape (a : ArrayPtr (List T)) (p q : Iterator) :
    (swap_elems a p q).raw_ptr_.map List.length = a.raw_ptr_.map List.length := by
  unfold swap_elems
  split
  · rw [store_shape, store_shape]
  · rfl

theorem Erase_loop_shape (end_ : Iterator) :
    ∀ (n : Nat) (pos_copy it : Iterator) (a : ArrayPtr (List T)),
      (SimpleVector.Erase_loop end_ n pos_copy it a).raw_ptr_.map List.length
        = a.raw_ptr_.map List.length := by
  intro n
  induction n with
  | zero => intro _ _ _; rfl
  | succ n ih =>
    intro pos_copy it a
    simp only [SimpleVector.Erase_loop]
    split
    · rfl
    · rw [ih, swap_elems_shape]

end MemoryLemmas

/-! ## Lemmas on the vector operations -/

namespace SimpleVector

variable {T : Type}

/-- A vector that satisfies the invariant is the default one up to its
capacity-0 fields, or owns a block of `m_capacity > 0` slots. -/
theorem WF_cases (v : SimpleVector T) (h : v.WF) :
    (v.m_vector = ⟨none⟩ ∧ v.m_capacity = 0 ∧ v.m_size = 0) ∨
    (∃ blk, v.m_vector = ⟨some blk⟩ ∧ blk.length = v.m_capacity ∧ v.m_capacity ≠ 0 ∧
      v.m_size ≤ v.m_capacity) := by
  obtain ⟨⟨raw⟩, size, cap⟩ := v
  cases raw with
  | none =>
    left
    simp only [WF, slots, Option.getD_none, List.length_nil, Option.isSome_none] at h
    simp only [true_and]
    omega
  | some blk =>
    right
    simp only [WF, slots, Option.getD_some, Option.isSome_some, true_iff] at h
    exact ⟨blk, rfl, h.2.1, h.2.2, h.1⟩

theorem ofSize_pos [Inhabited T] (n : Nat) (h : n ≠ 0) :
    (ArrayPtr.ofSize n : ArrayPtr (List T)) = ⟨some (List.replicate n default)⟩ := by
  simp [ArrayPtr.ofSize, Ne.symm h]

theorem Sized_eq [Inhabited T] (n : Nat) :
    (Sized n : SimpleVector T) = ⟨ArrayPtr.ofSize n, n, n⟩ := by
  unfold Sized
  by_cases h : n = 0
  · subst h
    simp [ArrayPtr.ofSize, std_generate, ArrayPtr.swap, ArrayPtr.null]
  · simp only [ofSize_pos n h, std_generate_replicate default (fun _ => default) rfl,
      ArrayPtr.swap, ArrayPtr.null]

/-- The capacity chosen by the growing branch of `Resize`. -/
theorem Resize_grow [Inhabited T] (v : SimpleVector T) (h : v.WF) (n : Nat) (hn : v.m_size < n)
    (cap : Nat)
    (hcap : cap = if n ≤ v.m_capacity then v.m_capacity else max n (2 * v.m_capacity)) :
    v.Resize n = ⟨⟨some (v.toList ++ List.replicate (cap - v.m_size) default)⟩, cap, cap⟩ := by
  have hcn : n ≤ cap := by
    rw [hcap]; split <;> omega
  have hc0 : cap ≠ 0 := by omega
  unfold Resize
  rw [if_neg (by omega), ← hcap]
  simp only [Sized_eq, ofSize_pos cap hc0, swapRv, ArrayPtr.swapRv]
  rcases WF_cases v h with ⟨hv, hc, hs⟩ | ⟨blk, hv, hl, hc, hs⟩
  · simp [begin_, end_, IsEmpty, hs, distance, std_copy, toList, slots, hv]
  · by_cases h0 : v.m_size = 0
    · simp [begin_, end_, IsEmpty, h0, distance, std_copy, toList, slots, hv]
    · have hb : v.begin_ = some 0 := by
        simp [begin_, IsEmpty, Ne.symm h0, base, ArrayPtr.Get, hv]
      have he : v.end_ = some v.m_size := by
        simp [end_, IsEmpty, Ne.symm h0, base, ArrayPtr.Get, hv, next]
      have hb2 : (⟨⟨some (List.replicate cap (default : T))⟩, cap, cap⟩ : SimpleVector T).begin_
          = some 0 := by
        simp [begin_, IsEmpty, Ne.symm hc0, base, ArrayPtr.Get]
      rw [hb, he, hb2, hv]
      simp only [distance, Nat.sub_zero]
      rw [std_copy_block blk v.m_size 0 0 _ (by omega) (by simp; omega)]
      simp [toList, slots, hv]

theorem toList_length (v : SimpleVector T) (h : v.WF) : v.toList.length = v.m_size := by
  obtain ⟨h1, h2, _⟩ := h
  simp only [toList, List.length_take, h2]
  omega

/-- Under the invariant `operator[]` reads the logical contents. -/
theorem subscript_ok_iff (v : SimpleVector T) (h : v.WF) (i : Nat) (x : T) :
    v.subscript i = .ok x ↔ v.toList[i]? = some x := by
  unfold subscript
  by_cases hi : i < v.m_size
  · rw [if_pos hi]
    rcases WF_cases v h with ⟨hv, hc, hs⟩ | ⟨blk, hv, hl, hc, hs⟩
    · omega
    · have hb : v.begin_ = some 0 := by
        simp [begin_, IsEmpty, base, ArrayPtr.Get, hv]; omega
      rw [hb, hv, next_some, load_block]
      simp only [toList, slots, hv, Option.getD_some, Nat.zero_add]
      rw [List.getElem?_take_of_lt hi, List.getElem?_eq_getElem (by omega)]
      simp
  · rw [if_neg hi]
    have : v.toList[i]? = none := by
      rw [List.getElem?_eq_none]
      rw [toList_length v h]; omega
    simp [this]

theorem PushBack_eq [Inhabited T] (v : SimpleVector T) (h : v.WF) (x : T) (cap : Nat)
    (hcap : cap = if v.m_size + 1 ≤ v.m_capacity then v.m_capacity
      else max (v.m_size + 1) (2 * v.m_capacity)) :
    v.PushBack (.value x)
      = .ok ⟨⟨some (v.toList ++ x :: List.replicate (cap - (v.m_size + 1)) default)⟩,
          v.m_size + 1, cap⟩ := by
  have hcn : v.m_size + 1 ≤ cap := by
    rw [hcap]; split <;> omega
  unfold PushBack
  simp only [read_arg, Resize_grow v h (v.m_size + 1) (by omega) cap hcap]
  have hb : (⟨⟨some (v.toList ++ List.replicate (cap - v.m_size) (default : T))⟩, cap, cap⟩ :
      SimpleVector T).begin_ = some 0 := by
    simp [begin_, IsEmpty, base, ArrayPtr.Get]; omega
  rw [hb, next_some, store_block]
  have hl := toList_length v h
  have hset : (v.toList ++ List.replicate (cap - v.m_size) (default : T)).set (0 + v.m_size) x
      = v.toList ++ x :: List.replicate (cap - (v.m_size + 1)) default := by
    rw [Nat.zero_add, List.set_append_right _ _ (by omega), hl, Nat.sub_self]
    have : cap - v.m_size = (cap - (v.m_size + 1)) + 1 := by omega
    rw [this, List.replicate_succ, List.set_cons_zero]
  rw [hset]

/-- The growing branch is the one `Resize(m_size + 1)` takes: the block held
before the call is deleted. -/
theorem Resize_frees_succ (v : SimpleVector T) : v.Resize_frees (v.m_size + 1) = true := by
  simp [Resize_frees]

/-- A reference to a slot of the vector's own block dangles when `PushBack`
reads it. -/
theorem PushBack_element [Inhabited T] (v : SimpleVector T) (it : Iterator) :
    v.PushBack (.element it) = .error .bad_access ∧
    v.PushBackMove (.element it) = .error .bad_access := by
  constructor
  · unfold PushBack
    simp only [read_arg, Resize_frees_succ, if_true]
  · unfold PushBackMove
    simp only [exchange_arg, Resize_frees_succ, if_true]

/-- With an object outside the vector the move overload stores what the copy
overload stores, and leaves the default value in the argument. -/
theorem PushBackMove_value [Inhabited T] (v : SimpleVector T) (x : T) :
    v.PushBackMove (.value x) = (v.PushBack (.value x)).map (fun p => (p, Arg.value default)) := by
  unfold PushBackMove PushBack
  simp only [read_arg, exchange_arg]
  rfl

theorem PushBack_WF [Inhabited T] (v p : SimpleVector T) (h : v.WF) (item : Arg T)
    (he : v.PushBack item = .ok p) : p.WF := by
  cases item with
  | element it =>
    rw [(PushBack_element v it).1] at he
    cases he
  | value x =>
    rw [PushBack_eq v h x _ rfl] at he
    injection he with he
    subst he
    have hl := toList_length v h
    simp only [WF, slots, Option.getD_some, List.length_append, List.length_cons,
      List.length_replicate, hl, Option.isSome_some, true_iff]
    split <;> omega

theorem PushBackMove_WF [Inhabited T] (v p : SimpleVector T) (h : v.WF) (item moved : Arg T)
    (he : v.PushBackMove item = .ok (p, moved)) : p.WF := by
  cases item with
  | element it =>
    rw [(PushBack_element v it).2] at he
    cases he
  | value x =>
    rw [PushBackMove_value] at he
    cases hp : v.PushBack (.value x) with
    | error e => rw [hp] at he; cases he
    | ok q =>
      rw [hp] at he
      injection he with he
      injection he with he _
      subst he
      exact PushBack_WF v q h _ hp

theorem PushBack_toList [Inhabited T] (v p : SimpleVector T) (h : v.WF) (x : T)
    (he : v.PushBack (.value x) = .ok p) : p.toList = v.toList ++ [x] := by
  rw [PushBack_eq v h x _ rfl] at he
  injection he with he
  subst he
  have hl := toList_length v h
  show List.take (v.m_size + 1) (v.toList ++ _) = _
  rw [List.take_append_eq_append_take, List.take_of_length_le (by omega), hl]
  simp

theorem subscript_of_toList (v : SimpleVector T) (h : v.WF) (i : Nat) (hi : i < v.m_size) :
    ∃ y, v.toList[i]? = some y ∧ v.subscript i = .ok y := by
  have hl := toList_length v h
  refine ⟨v.toList[i], List.getElem?_eq_getElem (by omega), ?_⟩
  rw [subscript_ok_iff v h]
  exact List.getElem?_eq_getElem (by omega)

theorem Resize_shrink [Inhabited T] (v : SimpleVector T) (n : Nat) (hn : n ≤ v.m_size) :
    v.Resize n = { v with m_size := n } := by
  unfold Resize
  rw [if_pos hn]

theorem Resize_WF [Inhabited T] (v : SimpleVector T) (h : v.WF) (n : Nat) : (v.Resize n).WF := by
  by_cases hn : n ≤ v.m_size
  · rw [Resize_shrink v n hn]
    obtain ⟨h1, h2, h3⟩ := h
    exact ⟨by show n ≤ v.m_capacity; omega, h2, h3⟩
  · rw [Resize_grow v h n (by omega) _ rfl]
    have hl := toList_length v h
    have h1 := h.1
    simp only [WF, slots, Option.getD_some, List.length_append, List.length_replicate, hl,
      Option.isSome_some, true_iff]
    split <;> omega

theorem Resize_toList [Inhabited T] (v : SimpleVector T) (h : v.WF) (n : Nat) (cap : Nat)
    (hcap : cap = if n ≤ v.m_capacity then v.m_capacity else max n (2 * v.m_capacity)) :
    (v.Resize n).toList
      = if n ≤ v.m_size then v.toList.take n
        else v.toList ++ List.replicate (cap - v.m_size) default := by
  have hl := toList_length v h
  have h1 := h.1
  split
  · next hn =>
    rw [Resize_shrink v n hn]
    show List.take n v.slots = List.take n (List.take v.m_size v.slots)
    rw [List.take_take, Nat.min_eq_left hn]
  · next hn =>
    rw [Resize_grow v h n (by omega) cap hcap]
    show List.take cap (v.toList ++ _) = _
    rw [List.take_of_length_le]
    simp only [List.length_append, List.length_replicate, hl]
    have : n ≤ cap := by rw [hcap]; split <;> omega
    omega

/-- With an object `x` outside the vector, `PushBack(x)`, in the copy and in
the move overload, returns; the size is the old size plus one, every element
at an index below the old size is unchanged, and the element at the index of
the old size is `x`. -/
theorem PushBack_value_spec [Inhabited T] (v : SimpleVector T) (h : v.WF) (x : T) :
    ∃ p : SimpleVector T,
      v.PushBack (.value x) = .ok p ∧
      v.PushBackMove (.value x) = .ok (p, .value default) ∧
      p.GetSize = v.GetSize + 1 ∧
      (∀ i, i < v.GetSize → ∃ y, v.subscript i = .ok y ∧ p.subscript i = .ok y) ∧
      p.subscript v.GetSize = .ok x := by
  have hl := toList_length v h
  have hp := PushBack_eq v h x _ rfl
  have hw := PushBack_WF v _ h _ hp
  have ht := PushBack_toList v _ h x hp
  refine ⟨_, hp, ?_, rfl, ?_, ?_⟩
  · rw [PushBackMove_value, hp]; rfl
  · intro i hi
    obtain ⟨y, hy, hs⟩ := subscript_of_toList v h i hi
    refine ⟨y, hs, ?_⟩
    rw [subscript_ok_iff _ hw, ht, List.getElem?_append_left (by rw [hl]; exact hi)]
    exact hy
  · rw [subscript_ok_iff _ hw, ht,
      List.getElem?_append_right (by rw [hl]; exact Nat.le_refl _)]
    simp [GetSize, hl]

/-- C1 at a failing input: on the vector `[7, 8, 9]` of capacity 4, built by
three `PushBack` calls, `v.PushBack(v[0])` reads its argument after `Resize`
has deleted the block that the reference points into, in the copy and in the
move overload, so the call does not store the 7 that the element held; pushing
an object outside the vector that holds 7 does store it. -/
theorem PushBack_at_failing_input :
    PushBackAll [7, 8, 9] = .ok (⟨⟨some [7, 8, 9, 0]⟩, 3, 4⟩ : SimpleVector Nat) ∧
    (⟨⟨some [7, 8, 9, 0]⟩, 3, 4⟩ : SimpleVector Nat).subscript 0 = .ok 7 ∧
    (⟨⟨some [7, 8, 9, 0]⟩, 3, 4⟩ : SimpleVector Nat).PushBack
        (.element (next (⟨⟨some [7, 8, 9, 0]⟩, 3, 4⟩ : SimpleVector Nat).begin_ 0))
      = .error .bad_access ∧
    (⟨⟨some [7, 8, 9, 0]⟩, 3, 4⟩ : SimpleVector Nat).PushBackMove
        (.element (next (⟨⟨some [7, 8, 9, 0]⟩, 3, 4⟩ : SimpleVector Nat).begin_ 0))
      = .error .bad_access ∧
    (⟨⟨some [7, 8, 9, 0]⟩, 3, 4⟩ : SimpleVector Nat).PushBack (.value 7)
      = .ok ⟨⟨some [7, 8, 9, 7]⟩, 4, 4⟩ :=
  ⟨rfl, rfl, rfl, rfl, rfl⟩

/-- C5: after `Resize(new_size)` every element at an index below both the old
size and `new_size` is unchanged, and every element at an index from the old
size up to `new_size` is the default value, whatever the slots beyond the old
size held. -/
theorem Resize_elements [Inhabited T] (v : SimpleVector T) (h : v.WF) (new_size : Nat) :
    (∀ i, i < min v.GetSize new_size →
      ∃ y, v.subscript i = .ok y ∧ (v.Resize new_size).subscript i = .ok y) ∧
    (∀ i, v.GetSize ≤ i → i < new_size → (v.Resize new_size).subscript i = .ok default) := by
  have hl := toList_length v h
  have hw := Resize_WF v h new_size
  have ht := Resize_toList v h new_size _ rfl
  simp only [GetSize]
  constructor
  · intro i hi
    obtain ⟨y, hy, hs⟩ := subscript_of_toList v h i (by omega)
    refine ⟨y, hs, ?_⟩
    rw [subscript_ok_iff _ hw, ht]
    split
    · rw [List.getElem?_take_of_lt (by omega)]; exact hy
    · rw [List.getElem?_append_left (by omega)]; exact hy
  · intro i h1 h2
    rw [subscript_ok_iff _ hw, ht, if_neg (by omega),
      List.getElem?_append_right (by omega), hl]
    apply List.getElem?_replicate_of_lt
    split <;> omega

theorem Resize_elements_witness :
    (⟨⟨some [7, 8, 9, 6]⟩, 2, 4⟩ : SimpleVector Nat).WF ∧
    ((⟨⟨some [7, 8, 9, 6]⟩, 2, 4⟩ : SimpleVector Nat).Resize 3).subscript 2 = .ok default :=
  ⟨by decide, (Resize_elements ⟨⟨some [7, 8, 9, 6]⟩, 2, 4⟩ (by decide) 3).2 2
    (by decide) (by decide)⟩

/-- The size after `Resize(new_size)`: `new_size` in the truncating branch, the
capacity of the temporary vector in the growing branch. -/
theorem Resize_GetSize [Inhabited T] (v : SimpleVector T) (new_size : Nat) :
    (v.Resize new_size).GetSize
      = if new_size ≤ v.m_size then new_size
        else if new_size ≤ v.m_capacity then v.m_capacity
        else max new_size (2 * v.m_capacity) := by
  unfold Resize
  split
  · rfl
  · simp only [Sized_eq, swapRv, GetSize]

/-- C4 at a failing input: a full vector of two elements, built by two
`PushBack` calls, has size 4 after `Resize(3)`, and a vector of size 1 and
capacity 4 has size 4 after `Resize(2)`: the growing branch leaves `m_size` at
the capacity of the temporary vector. -/
theorem Resize_size_at_failing_input :
    PushBackAll [7, 8] = .ok (⟨⟨some [7, 8]⟩, 2, 2⟩ : SimpleVector Nat) ∧
    (⟨⟨some [7, 8]⟩, 2, 2⟩ : SimpleVector Nat).WF ∧
    (⟨⟨some [7, 8]⟩, 2, 2⟩ : SimpleVector Nat).GetSize = 2 ∧
    (⟨⟨some [7, 8]⟩, 2, 2⟩ : SimpleVector Nat).GetCapacity = 2 ∧
    ((⟨⟨some [7, 8]⟩, 2, 2⟩ : SimpleVector Nat).Resize 3).GetSize = 4 ∧
    ((Sized 4 : SimpleVector Nat).Resize 1).GetSize = 1 ∧
    ((Sized 4 : SimpleVector Nat).Resize 1).GetCapacity = 4 ∧
    (((Sized 4 : SimpleVector Nat).Resize 1).Resize 2).GetSize = 4 :=
  ⟨rfl, by decide, by decide, by decide, by decide, by decide, by decide, by decide⟩

theorem insert_block_eq (c R : List T) (i : Nat) (x : T) (hi : i ≤ c.length) (hR : 0 < R.length) :
    (List.take (i + 1) (c ++ R) ++ List.take (c.length - i) (List.drop i (c ++ R))
        ++ List.drop (i + (c.length - i) + 1) (c ++ R)).set i x
      = List.take i c ++ x :: List.drop i c ++ List.drop 1 R := by
  have h1 : List.take (c.length - i) (List.drop i (c ++ R)) = List.drop i c := by
    rw [List.drop_append_of_le_length hi]
    exact List.take_left' (by simp)
  have h2 : List.drop (i + (c.length - i) + 1) (c ++ R) = List.drop 1 R := by
    rw [show i + (c.length - i) + 1 = c.length + 1 by omega, List.drop_append]
  obtain ⟨b, hb⟩ : ∃ b, (c ++ R)[i]? = some b :=
    ⟨_, List.getElem?_eq_getElem (by simp; omega)⟩
  have h3 : List.take (i + 1) (c ++ R) = List.take i c ++ [b] := by
    rw [List.take_add_one, hb, List.take_append_of_le_length hi]
    rfl
  rw [h1, h2, h3, List.append_assoc, List.append_assoc,
    List.set_append_right _ _ (by simp), List.length_take, Nat.min_eq_left hi, Nat.sub_self]
  simp

theorem begin_of_pos (v : SimpleVector T) (blk : List T) (hv : v.m_vector = ⟨some blk⟩)
    (h0 : v.m_size ≠ 0) : v.begin_ = some 0 ∧ v.end_ = some v.m_size := by
  simp [begin_, end_, IsEmpty, Ne.symm h0, base, ArrayPtr.Get, hv, next]

theorem begin_of_zero (v : SimpleVector T) (h0 : v.m_size = 0) :
    v.begin_ = none ∧ v.end_ = none := by
  simp [begin_, end_, IsEmpty, h0]

theorem Insert_eq [Inhabited T] (v : SimpleVector T) (h : v.WF) (i : Nat) (hi : i ≤ v.m_size)
    (x : T) (cap : Nat)
    (hcap : cap = if v.m_size + 1 ≤ v.m_capacity then v.m_capacity
      else max (v.m_size + 1) (2 * v.m_capacity)) :
    v.Insert (next v.begin_ i) (.value x)
      = .ok (some i, ⟨⟨some (v.toList.take i ++ x :: v.toList.drop i
          ++ List.replicate (cap - (v.m_size + 1)) default)⟩, v.m_size + 1, cap⟩) := by
  have hl := toList_length v h
  have hcn : v.m_size + 1 ≤ cap := by
    rw [hcap]; split <;> omega
  have hassert : (!(ptr_le v.begin_ (next v.begin_ i) && ptr_le (next v.begin_ i) v.end_))
      = false := by
    rcases WF_cases v h with ⟨hv, hc, hs⟩ | ⟨blk, hv, hl, hc, hs⟩
    · simp [(begin_of_zero v hs).1, (begin_of_zero v hs).2, next, ptr_le]
    · by_cases h0 : v.m_size = 0
      · simp [(begin_of_zero v h0).1, (begin_of_zero v h0).2, next, ptr_le]
      · simp [(begin_of_pos v blk hv h0).1, (begin_of_pos v blk hv h0).2, next, ptr_le, hi]
  have hdist : distance v.begin_ (next v.begin_ i) = i := by
    by_cases h0 : v.m_size = 0
    · have : i = 0 := by omega
      simp [(begin_of_zero v h0).1, next, distance, this]
    · rcases WF_cases v h with ⟨hv, hc, hs⟩ | ⟨blk, hv, hl, hc, hs⟩
      · omega
      · simp [(begin_of_pos v blk hv h0).1, next, distance]
  unfold Insert
  rw [hassert]
  simp only [Bool.false_eq_true, if_false, hdist, read_arg,
    Resize_grow v h (v.m_size + 1) (by omega) cap hcap]
  have hb : (⟨⟨some (v.toList ++ List.replicate (cap - v.m_size) (default : T))⟩, cap, cap⟩ :
      SimpleVector T).begin_ = some 0 := by
    simp [begin_, IsEmpty, base, ArrayPtr.Get]; omega
  simp only [hb, next_some, Nat.zero_add, distance]
  have e : (some (v.m_size + 1) : Iterator) = some (i + (v.m_size - i) + 1) := by
    congr 1; omega
  rw [e, std_copy_backward_block _ _ _ (by simp [hl]; omega), store_block]
  have key := insert_block_eq v.toList (List.replicate (cap - v.m_size) default) i x
    (by omega) (by simp; omega)
  rw [hl] at key
  rw [key]
  simp only [List.drop_replicate]
  rw [show cap - v.m_size - 1 = cap - (v.m_size + 1) by omega]

/-- With an object outside the vector the move overload stores what the copy
overload stores, and leaves the default value in the argument. -/
theorem InsertMove_eq [Inhabited T] (v : SimpleVector T) (pos : Iterator) (x : T) :
    v.InsertMove pos (.value x)
      = (v.Insert pos (.value x)).map (fun r => (r.1, r.2, Arg.value default)) := by
  unfold InsertMove Insert
  split
  · rfl
  · simp only [read_arg, exchange_arg]
    rfl

/-- A reference to a slot of the vector's own block dangles when `Insert`
reads it: the call does not return a vector. -/
theorem Insert_element [Inhabited T] (v : SimpleVector T) (pos it : Iterator) :
    (∀ r, v.Insert pos (.element it) ≠ .ok r) ∧
    (∀ r, v.InsertMove pos (.element it) ≠ .ok r) := by
  constructor
  · intro r he
    unfold Insert at he
    split at he
    · cases he
    · simp only [read_arg, Resize_frees_succ, if_true] at he
      cases he
  · intro r he
    unfold InsertMove at he
    split at he
    · cases he
    · simp only [exchange_arg, Resize_frees_succ, if_true] at he
      cases he

/-- With an object `x` outside the vector and `i <= n`, `Insert(begin() + i, x)`,
in the copy and in the move overload, returns; the contents become the first
`i` elements of the old contents, then `x`, then the old elements `i..n-1`,
the size is `n + 1`, and the returned iterator is `begin() + i` of the
resulting vector and dereferences to `x`. -/
theorem Insert_value_spec [Inhabited T] (v : SimpleVector T) (h : v.WF) (i : Nat)
    (hi : i ≤ v.GetSize) (x : T) :
    ∃ v2 : SimpleVector T,
      v.Insert (next v.begin_ i) (.value x) = .ok (next v2.begin_ i, v2) ∧
      v.InsertMove (next v.begin_ i) (.value x) = .ok (next v2.begin_ i, v2, .value default) ∧
      v2.toList = v.toList.take i ++ [x] ++ v.toList.drop i ∧
      v2.GetSize = v.GetSize + 1 ∧
      load v2.m_vector (next v2.begin_ i) = some x ∧
      v2.subscript i = .ok x ∧
      v2.WF := by
  have hl := toList_length v h
  simp only [GetSize] at hi
  have he := Insert_eq v h i hi x _ rfl
  generalize hcap : (if v.m_size + 1 ≤ v.m_capacity then v.m_capacity
      else max (v.m_size + 1) (2 * v.m_capacity)) = cap at he
  have hcn : v.m_size + 1 ≤ cap := by
    rw [← hcap]; split <;> omega
  have hlen : (v.toList.take i ++ x :: v.toList.drop i).length = v.m_size + 1 := by
    simp only [List.length_append, List.length_take, List.length_cons, List.length_drop, hl]
    omega
  let v2 : SimpleVector T := ⟨⟨some (v.toList.take i ++ x :: v.toList.drop i
          ++ List.replicate (cap - (v.m_size + 1)) default)⟩, v.m_size + 1, cap⟩
  have hb : v2.begin_ = some 0 := by
    simp [v2, begin_, IsEmpty, base, ArrayPtr.Get]
  have hw : v2.WF := by
    refine ⟨hcn, ?_, ?_⟩
    · show List.length (_ ++ List.replicate (cap - (v.m_size + 1)) default) = cap
      rw [List.length_append, hlen, List.length_replicate]
      omega
    · show (Option.isSome (some _) = true ↔ cap ≠ 0)
      simp only [Option.isSome_some, true_iff]
      omega
  have ht : v2.toList = v.toList.take i ++ [x] ++ v.toList.drop i := by
    show List.take (v.m_size + 1) (_ ++ _) = _
    rw [List.take_append_of_le_length (by omega), List.take_of_length_le (by omega)]
    simp
  have hx : v2.toList[i]? = some x := by
    rw [ht, List.append_assoc, List.getElem?_append_right (by simp)]
    simp [List.length_take, hl, Nat.min_eq_left hi]
  refine ⟨v2, ?_, ?_, ht, rfl, ?_, ?_, hw⟩
  · rw [he, hb, next_some, Nat.zero_add]
  · rw [InsertMove_eq, he, hb, next_some, Nat.zero_add]
    rfl
  · have := (subscript_ok_iff v2 hw i x).2 hx
    unfold subscript at this
    rw [if_pos (by show i < v.m_size + 1; omega)] at this
    revert this
    cases load v2.m_vector (next v2.begin_ i) with
    | none => intro h; cases h
    | some y => intro h; injection h with h; rw [h]
  · exact (subscript_ok_iff v2 hw i x).2 hx

/-- C2 at a failing input: on the vector `[7, 8, 9]` of capacity 4, built by
three `PushBack` calls, `v.Insert(v.begin() + 1, v[0])` passes its assertion
and reads its argument after `Resize` has deleted the block that the reference
points into, in the copy and in the move overload, so the call does not yield
`[7, 7, 8, 9]`; inserting an object outside the vector that holds 7 does. -/
theorem Insert_at_failing_input :
    PushBackAll [7, 8, 9] = .ok (⟨⟨some [7, 8, 9, 0]⟩, 3, 4⟩ : SimpleVector Nat) ∧
    (⟨⟨some [7, 8, 9, 0]⟩, 3, 4⟩ : SimpleVector Nat).subscript 0 = .ok 7 ∧
    (⟨⟨some [7, 8, 9, 0]⟩, 3, 4⟩ : SimpleVector Nat).Insert
        (next (⟨⟨some [7, 8, 9, 0]⟩, 3, 4⟩ : SimpleVector Nat).begin_ 1)
        (.element (next (⟨⟨some [7, 8, 9, 0]⟩, 3, 4⟩ : SimpleVector Nat).begin_ 0))
      = .error .bad_access ∧
    (⟨⟨some [7, 8, 9, 0]⟩, 3, 4⟩ : SimpleVector Nat).InsertMove
        (next (⟨⟨some [7, 8, 9, 0]⟩, 3, 4⟩ : SimpleVector Nat).begin_ 1)
        (.element (next (⟨⟨some [7, 8, 9, 0]⟩, 3, 4⟩ : SimpleVector Nat).begin_ 0))
      = .error .bad_access ∧
    (⟨⟨some [7, 8, 9, 0]⟩, 3, 4⟩ : SimpleVector Nat).Insert
        (next (⟨⟨some [7, 8, 9, 0]⟩, 3, 4⟩ : SimpleVector Nat).begin_ 1) (.value 7)
      = .ok (some 1, ⟨⟨some [7, 7, 8, 9]⟩, 4, 4⟩) :=
  ⟨rfl, rfl, rfl, rfl, rfl⟩

theorem Erase_eq (v : SimpleVector T) (h : v.WF) (i : Nat) (hi : i < v.m_size) :
    v.Erase (next v.begin_ i)
      = .ok (if v.m_size - 1 = 0 then none else some i,
          ⟨⟨some (v.slots.take i ++ (v.slots.drop (i + 1)).take (v.m_size - (i + 1))
              ++ v.slots[i]?.toList ++ v.slots.drop v.m_size)⟩,
            v.m_size - 1, v.m_capacity⟩) := by
  rcases WF_cases v h with ⟨hv, hc, hs⟩ | ⟨blk, hv, hl, hc, hs⟩
  · omega
  · have h0 : v.m_size ≠ 0 := by omega
    obtain ⟨hb, he⟩ := begin_of_pos v blk hv h0
    unfold Erase
    simp only [hb, he, next_some, Nat.zero_add, ptr_le, ptr_lt, Nat.zero_le, decide_True, hi,
      Bool.and_self, Bool.not_true, Bool.false_eq_true, if_false, distance, hv]
    have e : (some v.m_size : Iterator) = some (i + 1 + (v.m_size - (i + 1))) := by
      congr 1; omega
    rw [e, Erase_loop_block _ _ _ (by omega)]
    have e2 : i + (v.m_size - (i + 1)) + 1 = v.m_size := by omega
    have hsl : v.slots = blk := by simp [slots, hv]
    rw [e2, hsl]
    by_cases h1 : v.m_size - 1 = 0
    · rw [if_pos h1.symm, if_pos h1]
    · rw [if_neg (Ne.symm h1), if_neg h1]

theorem erase_contents_eq (blk : List T) (n i : Nat) (hi : i < n) (hn : n ≤ blk.length) :
    List.take (n - 1) (blk.take i ++ (blk.drop (i + 1)).take (n - (i + 1))
        ++ blk[i]?.toList ++ blk.drop n)
      = (blk.take n).eraseIdx i := by
  rw [List.eraseIdx_eq_take_drop_succ, List.append_assoc, List.append_assoc]
  have h1 : (blk.take i ++ (blk.drop (i + 1)).take (n - (i + 1))).length = n - 1 := by
    simp only [List.length_append, List.length_take, List.length_drop]
    omega
  rw [← List.append_assoc, List.take_left' h1]
  rw [List.take_take, Nat.min_eq_left (by omega), List.drop_take]

theorem load_of_toList (v : SimpleVector T) (h : v.WF) (i : Nat) (hi : i < v.m_size) :
    load v.m_vector (next v.begin_ i) = v.toList[i]? := by
  rcases WF_cases v h with ⟨hv, hc, hs⟩ | ⟨blk, hv, hl, hc, hs⟩
  · omega
  · obtain ⟨hb, _⟩ := begin_of_pos v blk hv (by omega)
    rw [hb, hv, next_some, load_block, Nat.zero_add]
    simp only [toList, slots, hv, Option.getD_some]
    rw [List.getElem?_take_of_lt hi]

/-- C3: for a vector with contents `c` of size `n` and `i < n`,
`Erase(begin() + i)` succeeds, the contents become `c` without its element
`i`, the other elements keeping their order, the size is `n - 1`, the capacity
is unchanged, and the returned iterator is `begin() + i` of the result: it
points at the old element `i + 1` when `i < n - 1` and is `end()` when the
last element was removed. -/
theorem Erase_spec (v : SimpleVector T) (h : v.WF) (i : Nat) (hi : i < v.GetSize) :
    ∃ (it : Iterator) (v2 : SimpleVector T),
      v.Erase (next v.begin_ i) = .ok (it, v2) ∧
      v2.toList = v.toList.eraseIdx i ∧
      v2.GetSize = v.GetSize - 1 ∧
      v2.GetCapacity = v.GetCapacity ∧
      it = next v2.begin_ i ∧
      (i < v.GetSize - 1 → load v2.m_vector it = v.toList[i + 1]? ∧
        ∃ y, v.subscript (i + 1) = .ok y ∧ load v2.m_vector it = some y) ∧
      (i = v.GetSize - 1 → it = v2.end_) ∧
      v2.WF := by
  simp only [GetSize] at hi ⊢
  have he := Erase_eq v h i hi
  have hl := toList_length v h
  obtain ⟨hsc, hlen, hsome⟩ := h
  let v2 : SimpleVector T :=
    ⟨⟨some (v.slots.take i ++ (v.slots.drop (i + 1)).take (v.m_size - (i + 1))
              ++ v.slots[i]?.toList ++ v.slots.drop v.m_size)⟩,
            v.m_size - 1, v.m_capacity⟩
  have hx : v.slots[i]? = some v.slots[i] := List.getElem?_eq_getElem (by omega)
  have hw : v2.WF := by
    refine ⟨by show v.m_size - 1 ≤ v.m_capacity; omega, ?_, ?_⟩
    · show List.length (_ ++ List.drop v.m_size v.slots) = v.m_capacity
      rw [hx]
      simp only [List.length_append, List.length_take, List.length_drop, Option.toList_some,
        List.length_singleton]
      omega
    · show (Option.isSome (some _) = true ↔ v.m_capacity ≠ 0)
      simp only [Option.isSome_some, true_iff]
      omega
  have ht : v2.toList = v.toList.eraseIdx i :=
    erase_contents_eq v.slots v.m_size i hi (by omega)
  have hit : (if v.m_size - 1 = 0 then none else some i) = next v2.begin_ i := by
    by_cases h1 : v.m_size - 1 = 0
    · rw [if_pos h1, (begin_of_zero v2 h1).1]; rfl
    · rw [if_neg h1, (begin_of_pos v2 _ rfl h1).1, next_some, Nat.zero_add]
  refine ⟨_, v2, he, ht, rfl, rfl, hit, ?_, ?_, hw⟩
  · intro hlt
    rw [hit, load_of_toList v2 hw i hlt, ht, List.getElem?_eraseIdx, if_neg (by omega)]
    refine ⟨rfl, ?_⟩
    obtain ⟨y, hy, hs⟩ := subscript_of_toList v ⟨hsc, hlen, hsome⟩ (i + 1) (by omega)
    exact ⟨y, hs, hy⟩
  · intro hlast
    by_cases h1 : v.m_size - 1 = 0
    · rw [if_pos h1, (begin_of_zero v2 h1).2]
    · rw [if_neg h1, (begin_of_pos v2 _ rfl h1).2]
      show some i = some (v.m_size - 1)
      rw [hlast]

theorem Erase_spec_witness :
    (⟨⟨some [7, 8, 9, 0]⟩, 3, 4⟩ : SimpleVector Nat).WF ∧
    0 < (⟨⟨some [7, 8, 9, 0]⟩, 3, 4⟩ : SimpleVector Nat).GetSize ∧
    ∃ (it : Iterator) (v2 : SimpleVector Nat),
      (⟨⟨some [7, 8, 9, 0]⟩, 3, 4⟩ : SimpleVector Nat).Erase
          (next (⟨⟨some [7, 8, 9, 0]⟩, 3, 4⟩ : SimpleVector Nat).begin_ 0) = .ok (it, v2) ∧
      v2.toList = [8, 9] :=
  ⟨by decide, by decide,
    (Erase_spec ⟨⟨some [7, 8, 9, 0]⟩, 3, 4⟩ (by decide) 0 (by decide)).imp
      (fun _ hv => hv.imp (fun _ hv2 => ⟨hv2.1, hv2.2.1⟩))⟩

theorem Default_WF : (Default : SimpleVector T).WF := by
  simp [WF, Default, slots, ArrayPtr.null]

/-- C7: `At(index)`, in both overloads, fails with the out-of-range error
exactly when `index >= GetSize()`; when `index < GetSize()` it returns the
element that `operator[]` returns; and the call, failing or not, leaves the
vector as it was. -/
theorem At_spec (v : SimpleVector T) (h : v.WF) (index : Nat) :
    ((∃ what, (v.At index).1 = .error (.out_of_range what)) ↔ index ≥ v.GetSize) ∧
    (index < v.GetSize → ∃ y, (v.At index).1 = .ok y ∧ v.subscript index = .ok y) ∧
    (index ≥ v.GetSize → (v.At index).2 = v) ∧
    (v.At index).2 = v := by
  have hsucc : index < v.GetSize →
      ∃ y, (v.At index).1 = .ok y ∧ v.subscript index = .ok y := by
    intro hi
    obtain ⟨y, hy, hs⟩ := subscript_of_toList v h index hi
    refine ⟨y, ?_, hs⟩
    have hld := load_of_toList v h index hi
    unfold At
    rw [if_neg (by omega), hld, hy]
  have hsame : (v.At index).2 = v := by
    unfold At
    split
    · rfl
    · split <;> rfl
  refine ⟨⟨?_, ?_⟩, hsucc, fun _ => hsame, hsame⟩
  · rintro ⟨what, hw⟩
    by_contra hlt
    obtain ⟨y, hy, _⟩ := hsucc (by omega)
    rw [hy] at hw
    cases hw
  · intro hge
    refine ⟨"out of range", ?_⟩
    unfold At
    rw [if_pos hge]

theorem At_spec_witness :
    (⟨⟨some [7, 8, 9, 0]⟩, 3, 4⟩ : SimpleVector Nat).WF ∧
    ((∃ what, ((⟨⟨some [7, 8, 9, 0]⟩, 3, 4⟩ : SimpleVector Nat).At 3).1
        = .error (.out_of_range what)) ↔
      3 ≥ (⟨⟨some [7, 8, 9, 0]⟩, 3, 4⟩ : SimpleVector Nat).GetSize) :=
  ⟨by decide, (At_spec ⟨⟨some [7, 8, 9, 0]⟩, 3, 4⟩ (by decide) 3).1⟩

theorem CopyCtor_eq [Inhabited T] (other : SimpleVector T) (h : other.WF) :
    (CopyCtor other).1
      = ⟨if other.m_capacity = 0 then ⟨none⟩
          else ⟨some (other.toList ++ List.replicate (other.m_capacity - other.m_size) default)⟩,
        other.m_size, other.m_capacity⟩ := by
  unfold CopyCtor
  simp only [GetSize, GetCapacity, ArrayPtr.swap, ArrayPtr.null]
  rcases WF_cases other h with ⟨hv, hc, hs⟩ | ⟨blk, hv, hl, hc, hs⟩
  · simp [hc, hs, ArrayPtr.ofSize, (begin_of_zero other hs).1, (begin_of_zero other hs).2,
      distance, std_copy]
  · rw [if_neg hc, ofSize_pos _ hc]
    by_cases h0 : other.m_size = 0
    · simp [h0, (begin_of_zero other h0).1, (begin_of_zero other h0).2, distance, std_copy,
        toList]
    · obtain ⟨hb, he⟩ := begin_of_pos other blk hv h0
      rw [hb, he, hv]
      simp only [distance, Nat.sub_zero, base, ArrayPtr.Get]
      rw [std_copy_block blk other.m_size 0 0 _ (by omega) (by simp; omega)]
      simp [toList, slots, hv]

theorem CopyAssign_fst [Inhabited T] (self rhs : SimpleVector T) :
    (CopyAssign self rhs).1 = (CopyCtor rhs).1 := rfl

theorem CopyCtor_WF [Inhabited T] (other : SimpleVector T) (h : other.WF) :
    (CopyCtor other).1.WF := by
  rw [CopyCtor_eq other h]
  have hl := toList_length other h
  have h1 := h.1
  by_cases hc : other.m_capacity = 0
  · simp [WF, slots, hc]; omega
  · simp only [WF, slots, if_neg hc, Option.getD_some, List.length_append, hl,
      List.length_replicate, Option.isSome_some, true_iff]
    omega

theorem CopyCtor_toList [Inhabited T] (other : SimpleVector T) (h : other.WF) :
    (CopyCtor other).1.toList = other.toList := by
  rw [CopyCtor_eq other h]
  have hl := toList_length other h
  have h1 := h.1
  by_cases hc : other.m_capacity = 0
  · have hs : other.m_size = 0 := by omega
    simp [toList, hs]
  · simp only [toList, slots, if_neg hc, Option.getD_some]
    show List.take other.m_size (other.toList ++ _) = List.take other.m_size other.slots
    rw [List.take_append_of_le_length (by omega), List.take_of_length_le (by omega)]
    rfl

/-- C8 as stated fails: a vector with three elements and capacity 4 (built
by three `PushBack` calls) is copied to a vector of capacity 4, not 3, by the
copy constructor and by the copy assignment. -/
theorem Copy_capacity_counterexample :
    PushBackAll [7, 8, 9] = .ok (⟨⟨some [7, 8, 9, 0]⟩, 3, 4⟩ : SimpleVector Nat) ∧
    (⟨⟨some [7, 8, 9, 0]⟩, 3, 4⟩ : SimpleVector Nat).WF ∧
    (⟨⟨some [7, 8, 9, 0]⟩, 3, 4⟩ : SimpleVector Nat).GetSize = 3 ∧
    (CopyCtor (⟨⟨some [7, 8, 9, 0]⟩, 3, 4⟩ : SimpleVector Nat)).1.GetCapacity = 4 ∧
    (CopyAssign Default (⟨⟨some [7, 8, 9, 0]⟩, 3, 4⟩ : SimpleVector Nat)).1.GetCapacity = 4 ∧
    ¬ ((CopyCtor (⟨⟨some [7, 8, 9, 0]⟩, 3, 4⟩ : SimpleVector Nat)).1.GetCapacity
        = (⟨⟨some [7, 8, 9, 0]⟩, 3, 4⟩ : SimpleVector Nat).GetSize) ∧
    ¬ ((CopyAssign Default (⟨⟨some [7, 8, 9, 0]⟩, 3, 4⟩ : SimpleVector Nat)).1.GetCapacity
        = (⟨⟨some [7, 8, 9, 0]⟩, 3, 4⟩ : SimpleVector Nat).GetSize) :=
  ⟨rfl, by decide, by decide, by decide, by decide, by decide, by decide⟩

/-- C8 amended: a copy of `other`, by the copy constructor or by the copy
assignment, has `GetSize() == other.GetSize()` and
`GetCapacity() == other.GetCapacity()`, holds elements equal to those of
`other` at every index below the size, and `other` is unchanged. -/
theorem Copy_spec [Inhabited T] (other : SimpleVector T) (h : other.WF) (self : SimpleVector T) :
    ((CopyCtor other).1.GetSize = other.GetSize ∧
      (CopyCtor other).1.GetCapacity = other.GetCapacity ∧
      (∀ i, i < other.GetSize →
        ∃ y, other.subscript i = .ok y ∧ (CopyCtor other).1.subscript i = .ok y) ∧
      (CopyCtor other).2 = other) ∧
    ((CopyAssign self other).1.GetSize = other.GetSize ∧
      (CopyAssign self other).1.GetCapacity = other.GetCapacity ∧
      (∀ i, i < other.GetSize →
        ∃ y, other.subscript i = .ok y ∧ (CopyAssign self other).1.subscript i = .ok y) ∧
      (CopyAssign self other).2 = other) := by
  have key : (CopyCtor other).1.GetSize = other.GetSize ∧
      (CopyCtor other).1.GetCapacity = other.GetCapacity ∧
      (∀ i, i < other.GetSize →
        ∃ y, other.subscript i = .ok y ∧ (CopyCtor other).1.subscript i = .ok y) := by
    refine ⟨rfl, rfl, ?_⟩
    intro i hi
    obtain ⟨y, hy, hs⟩ := subscript_of_toList other h i hi
    refine ⟨y, hs, ?_⟩
    rw [subscript_ok_iff _ (CopyCtor_WF other h), CopyCtor_toList other h]
    exact hy
  exact ⟨⟨key.1, key.2.1, key.2.2, rfl⟩, ⟨key.1, key.2.1, key.2.2, rfl⟩⟩

theorem Copy_spec_witness :
    (⟨⟨some [7, 8, 9, 0]⟩, 3, 4⟩ : SimpleVector Nat).WF ∧
    (CopyCtor (⟨⟨some [7, 8, 9, 0]⟩, 3, 4⟩ : SimpleVector Nat)).1.GetCapacity
      = (⟨⟨some [7, 8, 9, 0]⟩, 3, 4⟩ : SimpleVector Nat).GetCapacity :=
  ⟨by decide, (Copy_spec ⟨⟨some [7, 8, 9, 0]⟩, 3, 4⟩ (by decide) Default).1.2.1⟩

theorem exchange_members_eq (self other : SimpleVector T) :
    exchange_members self other = (other, self) := rfl

/-- C9 as stated fails: after `b = move(a)` with `a = [1]` and `b = [2, 3]`,
each built by `PushBack` calls, `b` holds `[1]` and `a` has size 2, not 0. -/
theorem MoveAssign_counterexample :
    PushBackAll [1] = .ok (⟨⟨some [1]⟩, 1, 1⟩ : SimpleVector Nat) ∧
    PushBackAll [2, 3] = .ok (⟨⟨some [2, 3]⟩, 2, 2⟩ : SimpleVector Nat) ∧
    (MoveAssign (⟨⟨some [2, 3]⟩, 2, 2⟩ : SimpleVector Nat) (⟨⟨some [1]⟩, 1, 1⟩ : SimpleVector Nat)).1.toList = [1] ∧
    (MoveAssign (⟨⟨some [2, 3]⟩, 2, 2⟩ : SimpleVector Nat) (⟨⟨some [1]⟩, 1, 1⟩ : SimpleVector Nat)).2.GetSize = 2 ∧
    ¬ ((MoveAssign (⟨⟨some [2, 3]⟩, 2, 2⟩ : SimpleVector Nat) (⟨⟨some [1]⟩, 1, 1⟩ : SimpleVector Nat)).2.GetSize = 0) :=
  ⟨rfl, rfl, by decide, by decide, by decide⟩

/-- C9 amended: after the move assignment `b = move(a)`, `b` has the size,
the capacity and the element values that `a` had, in order, and `a` is left
with the size, the capacity and the elements that `b` had; so `a` is left
empty exactly when `b` was empty before the assignment. -/
theorem MoveAssign_spec (a b : SimpleVector T) :
    (MoveAssign b a).1 = a ∧
    (MoveAssign b a).1.GetSize = a.GetSize ∧
    (MoveAssign b a).1.toList = a.toList ∧
    (∀ i, (MoveAssign b a).1.subscript i = a.subscript i) ∧
    (MoveAssign b a).2 = b ∧
    ((MoveAssign b a).2.GetSize = 0 ↔ b.GetSize = 0) :=
  ⟨rfl, rfl, rfl, fun _ => rfl, rfl, Iff.rfl⟩

/-- C10: move-constructing `b` from `a` gives `b` the size, the capacity and
the elements that `a` had, and leaves `a` in the default state, with
`GetSize() == 0` and `GetCapacity() == 0`. -/
theorem MoveCtor_spec (a : SimpleVector T) :
    (MoveCtor a).1 = a ∧
    (MoveCtor a).1.GetSize = a.GetSize ∧
    (MoveCtor a).1.GetCapacity = a.GetCapacity ∧
    (MoveCtor a).1.toList = a.toList ∧
    (∀ i, (MoveCtor a).1.subscript i = a.subscript i) ∧
    (MoveCtor a).2 = Default ∧
    (MoveCtor a).2.GetSize = 0 ∧
    (MoveCtor a).2.GetCapacity = 0 :=
  ⟨rfl, rfl, rfl, rfl, fun _ => rfl, rfl, rfl, rfl⟩

theorem ofSize_zero [Inhabited T] : (ArrayPtr.ofSize 0 : ArrayPtr (List T)) = ⟨none⟩ := rfl

theorem SizedWithValue_eq [Inhabited T] (n : Nat) (value : T) :
    (SizedWithValue n value : SimpleVector T)
      = ⟨if n = 0 then ⟨none⟩ else ⟨some (List.replicate n value)⟩, n, n⟩ := by
  unfold SizedWithValue
  by_cases h : n = 0
  · subst h
    simp [ArrayPtr.ofSize, std_fill, ArrayPtr.swap, ArrayPtr.null]
  · rw [if_neg h]
    simp only [ofSize_pos n h, base, ArrayPtr.Get, ArrayPtr.swap, ArrayPtr.null]
    rw [std_fill_block value n 0 _ (by simp)]
    simp

theorem Reserving_eq [Inhabited T] (obj : ReserveProxyObj) :
    (Reserving obj : SimpleVector T) = ⟨ArrayPtr.ofSize obj.GetReserve, 0, obj.GetReserve⟩ := by
  unfold Reserving
  by_cases h : obj.GetReserve = 0
  · simp [h, ArrayPtr.ofSize, std_fill, ArrayPtr.swap, ArrayPtr.null]
  · simp only [ofSize_pos _ h, base, ArrayPtr.Get, ArrayPtr.swap, ArrayPtr.null]
    rw [std_fill_block default _ 0 _ (by simp)]
    simp

theorem FromList_eq [Inhabited T] (init : List T) :
    (FromList init : SimpleVector T)
      = ⟨if init.length = 0 then ⟨none⟩ else ⟨some init⟩, init.length, init.length⟩ := by
  unfold FromList
  by_cases h : init.length = 0
  · simp [h, ArrayPtr.ofSize, std_copy, ArrayPtr.swap, ArrayPtr.null]
  · rw [if_neg h]
    simp only [ofSize_pos _ h, base, ArrayPtr.Get, ArrayPtr.swap, ArrayPtr.null]
    rw [std_copy_block init _ 0 0 _ (by omega) (by simp)]
    simp

theorem WF_of_block (blk : List T) (size cap : Nat) (h1 : size ≤ cap) (h2 : blk.length = cap)
    (h3 : cap ≠ 0) : (⟨⟨some blk⟩, size, cap⟩ : SimpleVector T).WF := by
  simp [WF, slots, h1, h2, h3]

theorem WF_of_null (size cap : Nat) (h1 : size = 0) (h2 : cap = 0) :
    (⟨⟨none⟩, size, cap⟩ : SimpleVector T).WF := by
  simp [WF, slots, h1, h2]

theorem Sized_WF [Inhabited T] (n : Nat) : (Sized n : SimpleVector T).WF := by
  rw [Sized_eq]
  by_cases h : n = 0
  · subst h; exact WF_of_null _ _ rfl rfl
  · rw [ofSize_pos n h]; exact WF_of_block _ _ _ (Nat.le_refl _) (by simp) h

theorem SizedWithValue_WF [Inhabited T] (n : Nat) (value : T) :
    (SizedWithValue n value : SimpleVector T).WF := by
  rw [SizedWithValue_eq]
  by_cases h : n = 0
  · rw [if_pos h]; exact WF_of_null _ _ h h
  · rw [if_neg h]; exact WF_of_block _ _ _ (Nat.le_refl _) (by simp) h

theorem FromList_WF [Inhabited T] (init : List T) : (FromList init : SimpleVector T).WF := by
  rw [FromList_eq]
  by_cases h : init.length = 0
  · rw [if_pos h]; exact WF_of_null _ _ h h
  · rw [if_neg h]; exact WF_of_block _ _ _ (Nat.le_refl _) rfl h

theorem Reserving_WF [Inhabited T] (obj : ReserveProxyObj) :
    (Reserving obj : SimpleVector T).WF := by
  rw [Reserving_eq]
  by_cases h : obj.GetReserve = 0
  · rw [h]; exact WF_of_null _ _ rfl rfl
  · rw [ofSize_pos _ h]; exact WF_of_block _ _ _ (Nat.zero_le _) (by simp) h

theorem Sized_toList [Inhabited T] (n : Nat) :
    (Sized n : SimpleVector T).toList = List.replicate n default := by
  rw [Sized_eq]
  by_cases h : n = 0
  · subst h; rfl
  · rw [ofSize_pos n h]; simp [toList, slots]

theorem SizedWithValue_toList [Inhabited T] (n : Nat) (value : T) :
    (SizedWithValue n value : SimpleVector T).toList = List.replicate n value := by
  rw [SizedWithValue_eq]
  by_cases h : n = 0
  · subst h; rfl
  · rw [if_neg h]; simp [toList, slots]

theorem FromList_toList [Inhabited T] (init : List T) :
    (FromList init : SimpleVector T).toList = init := by
  rw [FromList_eq]
  by_cases h : init.length = 0
  · rw [if_pos h]
    have : init = [] := List.length_eq_zero.1 h
    subst this; rfl
  · rw [if_neg h]; simp [toList, slots]

theorem Iterate_eq (v : SimpleVector T) (h : v.WF) : v.Iterate = .ok v.toList := by
  unfold Iterate
  rcases WF_cases v h with ⟨hv, hc, hs⟩ | ⟨blk, hv, hl, hc, hs⟩
  · simp [(begin_of_zero v hs).1, (begin_of_zero v hs).2, distance, read_range, toList, hs]
  · by_cases h0 : v.m_size = 0
    · simp [(begin_of_zero v h0).1, (begin_of_zero v h0).2, distance, read_range, toList, h0]
    · obtain ⟨hb, he⟩ := begin_of_pos v blk hv h0
      rw [hb, he, hv]
      simp only [distance, Nat.sub_zero]
      rw [read_range_block _ 0 blk (by omega)]
      simp [toList, slots, hv]

/-- C13: `Sized(n)` has size and capacity `n` and every element is the default
value; `SizedWithValue(n, v)` has size and capacity `n` and every element is
`v`; `FromList(values)` has size and capacity `len(values)` and the iteration
from `begin()` to `end()` yields `values` in order; `n = 0` and the empty list
give an empty vector of capacity 0. -/
theorem constructors_spec [Inhabited T] :
    (∀ n : Nat, (Sized n : SimpleVector T).GetSize = n ∧
      (Sized n : SimpleVector T).GetCapacity = n ∧
      ∀ i, i < n → (Sized n : SimpleVector T).subscript i = .ok default) ∧
    (∀ (n : Nat) (v : T), (SizedWithValue n v).GetSize = n ∧
      (SizedWithValue n v).GetCapacity = n ∧
      ∀ i, i < n → (SizedWithValue n v).subscript i = .ok v) ∧
    (∀ values : List T, (FromList values).GetSize = values.length ∧
      (FromList values).GetCapacity = values.length ∧
      (FromList values).Iterate = .ok values) ∧
    ((Sized 0 : SimpleVector T).IsEmpty = true ∧ (Sized 0 : SimpleVector T).GetCapacity = 0) ∧
    (∀ v : T, (SizedWithValue 0 v).IsEmpty = true ∧ (SizedWithValue 0 v).GetCapacity = 0) ∧
    ((FromList ([] : List T)).IsEmpty = true ∧ (FromList ([] : List T)).GetCapacity = 0) := by
  refine ⟨?_, ?_, ?_, ⟨rfl, rfl⟩, fun _ => ⟨rfl, rfl⟩, ⟨rfl, rfl⟩⟩
  · intro n
    refine ⟨rfl, rfl, ?_⟩
    intro i hi
    rw [subscript_ok_iff _ (Sized_WF n), Sized_toList]
    exact List.getElem?_replicate_of_lt hi
  · intro n v
    refine ⟨rfl, rfl, ?_⟩
    intro i hi
    rw [subscript_ok_iff _ (SizedWithValue_WF n v), SizedWithValue_toList]
    exact List.getElem?_replicate_of_lt hi
  · intro values
    refine ⟨rfl, rfl, ?_⟩
    rw [Iterate_eq _ (FromList_WF values), FromList_toList]

theorem Reserve_eq [Inhabited T] (v : SimpleVector T) (h : v.WF) (n : Nat)
    (hn : v.m_capacity < n) :
    v.Reserve n
      = ⟨⟨some (v.toList ++ List.replicate (n - v.m_size) default)⟩, v.m_size, n⟩ := by
  have hn0 : n ≠ 0 := by omega
  unfold Reserve
  rw [if_pos hn, ofSize_pos n hn0]
  simp only [ArrayPtr.swap, base, ArrayPtr.Get]
  rcases WF_cases v h with ⟨hv, hc, hs⟩ | ⟨blk, hv, hl, hc, hs⟩
  · simp [hs, (begin_of_zero v hs).1, (begin_of_zero v hs).2, distance, std_copy, toList]
  · by_cases h0 : v.m_size = 0
    · simp [h0, (begin_of_zero v h0).1, (begin_of_zero v h0).2, distance, std_copy, toList]
    · obtain ⟨hb, he⟩ := begin_of_pos v blk hv h0
      rw [hb, he, hv]
      simp only [distance, Nat.sub_zero]
      rw [std_copy_block blk v.m_size 0 0 _ (by omega) (by simp; omega)]
      simp [toList, slots, hv]

theorem Reserve_noop [Inhabited T] (v : SimpleVector T) (n : Nat) (hn : n ≤ v.m_capacity) :
    v.Reserve n = v := by
  unfold Reserve
  rw [if_neg (by omega)]

theorem Reserve_WF [Inhabited T] (v : SimpleVector T) (h : v.WF) (n : Nat) :
    (v.Reserve n).WF := by
  by_cases hn : v.m_capacity < n
  · rw [Reserve_eq v h n hn]
    have hl := toList_length v h
    have h1 := h.1
    exact WF_of_block _ _ _ (by omega) (by simp [hl]; omega) (by omega)
  · rw [Reserve_noop v n (by omega)]; exact h

theorem Reserve_toList [Inhabited T] (v : SimpleVector T) (h : v.WF) (n : Nat) :
    (v.Reserve n).toList = v.toList := by
  by_cases hn : v.m_capacity < n
  · rw [Reserve_eq v h n hn]
    have hl := toList_length v h
    show List.take v.m_size (v.toList ++ _) = v.toList
    rw [List.take_append_of_le_length (by omega), List.take_of_length_le (by omega)]
  · rw [Reserve_noop v n (by omega)]

/-- C14: after `Reserve(new_capacity)` the capacity is the larger of the old
capacity and `new_capacity` (exactly `new_capacity` when it exceeds the old
capacity, the call being a no-op otherwise), and the size and every element at
an index below the size are unchanged. -/
theorem Reserve_spec [Inhabited T] (v : SimpleVector T) (h : v.WF) (new_capacity : Nat) :
    (v.Reserve new_capacity).GetCapacity = max v.GetCapacity new_capacity ∧
    (v.GetCapacity < new_capacity → (v.Reserve new_capacity).GetCapacity = new_capacity) ∧
    (new_capacity ≤ v.GetCapacity → v.Reserve new_capacity = v) ∧
    (v.Reserve new_capacity).GetSize = v.GetSize ∧
    (∀ i, i < v.GetSize →
      ∃ y, v.subscript i = .ok y ∧ (v.Reserve new_capacity).subscript i = .ok y) := by
  have hcap : v.GetCapacity < new_capacity →
      (v.Reserve new_capacity).GetCapacity = new_capacity := by
    intro hn
    rw [Reserve_eq v h _ hn]
    rfl
  refine ⟨?_, hcap, Reserve_noop v new_capacity, ?_, ?_⟩
  · by_cases hn : v.GetCapacity < new_capacity
    · rw [hcap hn, Nat.max_eq_right (by omega)]
    · simp only [GetCapacity] at hn
      rw [Reserve_noop v _ (by omega), Nat.max_eq_left (by simp only [GetCapacity]; omega)]
  · by_cases hn : v.m_capacity < new_capacity
    · rw [Reserve_eq v h _ hn]; rfl
    · rw [Reserve_noop v _ (by omega)]
  · intro i hi
    obtain ⟨y, hy, hs⟩ := subscript_of_toList v h i hi
    refine ⟨y, hs, ?_⟩
    rw [subscript_ok_iff _ (Reserve_WF v h _), Reserve_toList v h]
    exact hy

theorem Reserve_spec_witness :
    (⟨⟨some [7, 8, 9, 0]⟩, 3, 4⟩ : SimpleVector Nat).WF ∧
    ((⟨⟨some [7, 8, 9, 0]⟩, 3, 4⟩ : SimpleVector Nat).Reserve 6).GetCapacity
      = max (⟨⟨some [7, 8, 9, 0]⟩, 3, 4⟩ : SimpleVector Nat).GetCapacity 6 :=
  ⟨by decide, (Reserve_spec ⟨⟨some [7, 8, 9, 0]⟩, 3, 4⟩ (by decide) 6).1⟩

theorem truncate_WF (v : SimpleVector T) (h : v.WF) (k : Nat) (hk : k ≤ v.m_size) :
    ({ v with m_size := k } : SimpleVector T).WF := by
  obtain ⟨h1, h2, h3⟩ := h
  exact ⟨by show k ≤ v.m_capacity; omega, h2, h3⟩

theorem truncate_subscript (v : SimpleVector T) (h : v.WF) (k : Nat) (hk : k ≤ v.m_size)
    (i : Nat) (hi : i < k) :
    ∃ y, v.subscript i = .ok y ∧ ({ v with m_size := k } : SimpleVector T).subscript i = .ok y := by
  obtain ⟨y, hy, hs⟩ := subscript_of_toList v h i (by omega)
  refine ⟨y, hs, ?_⟩
  rw [subscript_ok_iff _ (truncate_WF v h k hk)]
  show (List.take k v.slots)[i]? = some y
  rw [List.getElem?_take_of_lt hi]
  have : v.toList[i]? = v.slots[i]? := List.getElem?_take_of_lt (by omega)
  rw [← this]
  exact hy

theorem PopBack_eq (v : SimpleVector T) : v.PopBack = { v with m_size := v.m_size - 1 } := by
  unfold PopBack
  split
  · rfl
  · next h =>
    have : v.m_size = 0 := by omega
    obtain ⟨m, s, c⟩ := v
    simp only at this
    subst this
    rfl

/-- C16: `Clear()` sets the size to 0; `PopBack()` lowers the size by one when
it is positive and does nothing on an empty vector; `Resize(n)` with
`n <= size` sets the size to `n`; each of them leaves the capacity and every
element at an index below the new size unchanged; so `Clear()` followed by
`Resize(0)` leaves size 0 and the capacity unchanged. -/
theorem size_reducing_spec [Inhabited T] (v : SimpleVector T) (h : v.WF) :
    (v.Clear.GetSize = 0 ∧ v.Clear.GetCapacity = v.GetCapacity ∧
      (∀ i, i < v.Clear.GetSize → ∃ y, v.subscript i = .ok y ∧ v.Clear.subscript i = .ok y)) ∧
    ((0 < v.GetSize → v.PopBack.GetSize = v.GetSize - 1) ∧
      (v.GetSize = 0 → v.PopBack = v) ∧
      v.PopBack.GetCapacity = v.GetCapacity ∧
      (∀ i, i < v.PopBack.GetSize →
        ∃ y, v.subscript i = .ok y ∧ v.PopBack.subscript i = .ok y)) ∧
    (∀ n, n ≤ v.GetSize →
      (v.Resize n).GetSize = n ∧ (v.Resize n).GetCapacity = v.GetCapacity ∧
      (∀ i, i < n → ∃ y, v.subscript i = .ok y ∧ (v.Resize n).subscript i = .ok y)) ∧
    ((v.Clear.Resize 0).GetSize = 0 ∧ (v.Clear.Resize 0).GetCapacity = v.GetCapacity) := by
  refine ⟨⟨rfl, rfl, ?_⟩, ⟨?_, ?_, ?_, ?_⟩, ?_, ⟨rfl, rfl⟩⟩
  · intro i hi
    exact absurd hi (Nat.not_lt_zero i)
  · intro _
    rw [PopBack_eq]; rfl
  · intro h0
    unfold PopBack
    rw [if_neg (by simp only [GetSize] at h0; omega)]
  · rw [PopBack_eq]; rfl
  · rw [PopBack_eq]
    intro i hi
    exact truncate_subscript v h (v.m_size - 1) (Nat.sub_le _ _) i hi
  · intro n hn
    rw [Resize_shrink v n hn]
    exact ⟨rfl, rfl, fun i hi => truncate_subscript v h n hn i hi⟩

theorem size_reducing_spec_witness :
    (⟨⟨some [7, 8, 9, 0]⟩, 3, 4⟩ : SimpleVector Nat).WF ∧
    (⟨⟨some [7, 8, 9, 0]⟩, 3, 4⟩ : SimpleVector Nat).PopBack.GetCapacity
      = (⟨⟨some [7, 8, 9, 0]⟩, 3, 4⟩ : SimpleVector Nat).GetCapacity :=
  ⟨by decide, (size_reducing_spec ⟨⟨some [7, 8, 9, 0]⟩, 3, 4⟩ (by decide)).2.1.2.2.1⟩

theorem Resize_GetCapacity [Inhabited T] (v : SimpleVector T) (new_size : Nat) :
    (v.Resize new_size).GetCapacity
      = if new_size ≤ v.m_size then v.m_capacity
        else if new_size ≤ v.m_capacity then v.m_capacity
        else max new_size (2 * v.m_capacity) := by
  unfold Resize
  split
  · rfl
  · simp only [Sized_eq, swapRv, GetCapacity]

/-- C17: the capacity after `Resize(new_size)` is the old capacity when
`new_size` is at most the old capacity, and `max(new_size, 2 * old capacity)`
when `new_size` exceeds it; growing from capacity 0 gives capacity `new_size`,
never 0, and the resulting capacity is at least `new_size`. -/
theorem Resize_capacity_spec [Inhabited T] (v : SimpleVector T) (h : v.WF) (new_size : Nat) :
    (new_size ≤ v.GetCapacity → (v.Resize new_size).GetCapacity = v.GetCapacity) ∧
    (v.GetCapacity < new_size →
      (v.Resize new_size).GetCapacity = max new_size (2 * v.GetCapacity)) ∧
    (v.GetCapacity = 0 → 0 < new_size →
      (v.Resize new_size).GetCapacity = new_size ∧ (v.Resize new_size).GetCapacity ≠ 0) ∧
    new_size ≤ (v.Resize new_size).GetCapacity := by
  have h1 : v.m_size ≤ v.m_capacity := h.1
  rw [Resize_GetCapacity]
  simp only [GetCapacity]
  refine ⟨?_, ?_, ?_, ?_⟩
  · intro hle
    rw [if_pos hle]
    split <;> rfl
  · intro hlt
    rw [if_neg (by omega), if_neg (by omega)]
  · intro h0 hpos
    rw [if_neg (by omega), if_neg (by omega), h0]
    constructor
    · simp
    · simp; omega
  · split
    · omega
    · split
      · omega
      · exact Nat.le_max_left _ _

theorem Resize_capacity_spec_witness :
    (⟨⟨some [7, 8, 9, 0]⟩, 3, 4⟩ : SimpleVector Nat).WF ∧
    5 ≤ ((⟨⟨some [7, 8, 9, 0]⟩, 3, 4⟩ : SimpleVector Nat).Resize 5).GetCapacity :=
  ⟨by decide, (Resize_capacity_spec ⟨⟨some [7, 8, 9, 0]⟩, 3, 4⟩ (by decide) 5).2.2.2⟩

/-- The capacity chosen by `Resize(m_size + 1)`: unchanged below a full
vector, 1 from capacity 0, twice the capacity from a full vector. -/
theorem grown_capacity (size cap : Nat) :
    (size < cap →
      (if size + 1 ≤ cap then cap else max (size + 1) (2 * cap)) = cap) ∧
    (size = cap → cap ≠ 0 →
      (if size + 1 ≤ cap then cap else max (size + 1) (2 * cap)) = 2 * cap) ∧
    (size = cap → cap = 0 →
      (if size + 1 ≤ cap then cap else max (size + 1) (2 * cap)) = 1) := by
  refine ⟨?_, ?_, ?_⟩
  · intro hlt
    rw [if_pos (by omega)]
  · intro he h0
    rw [if_neg (by omega)]
    exact Nat.max_eq_right (by omega)
  · intro he h0
    rw [if_neg (by omega), he, h0]
    rfl

/-- C18: one `PushBack` or one `Insert` at a valid position, in either
overload, of an object outside the vector returns a vector whose capacity is
twice the old one when the vector was full (`size == capacity`), 1 when the
capacity was 0, and the old one when `size < capacity`. -/
theorem insertion_capacity_spec [Inhabited T] (v : SimpleVector T) (h : v.WF) (x : T)
    (i : Nat) (hi : i ≤ v.GetSize) :
    ∃ (it : Iterator) (v2 p : SimpleVector T),
      v.Insert (next v.begin_ i) (.value x) = .ok (it, v2) ∧
      v.InsertMove (next v.begin_ i) (.value x) = .ok (it, v2, .value default) ∧
      v.PushBack (.value x) = .ok p ∧
      v.PushBackMove (.value x) = .ok (p, .value default) ∧
      (v.GetSize < v.GetCapacity →
        p.GetCapacity = v.GetCapacity ∧
        v2.GetCapacity = v.GetCapacity) ∧
      (v.GetSize = v.GetCapacity → v.GetCapacity ≠ 0 →
        p.GetCapacity = 2 * v.GetCapacity ∧
        v2.GetCapacity = 2 * v.GetCapacity) ∧
      (v.GetSize = v.GetCapacity → v.GetCapacity = 0 →
        p.GetCapacity = 1 ∧
        v2.GetCapacity = 1) := by
  simp only [GetSize] at hi
  have he := Insert_eq v h i hi x _ rfl
  have hp := PushBack_eq v h x _ rfl
  obtain ⟨g1, g2, g3⟩ := grown_capacity v.m_size v.m_capacity
  refine ⟨_, _, _, he, ?_, hp, ?_, ?_, ?_, ?_⟩
  · rw [InsertMove_eq, he]; rfl
  · rw [PushBackMove_value, hp]; rfl
  · intro hlt
    exact ⟨g1 hlt, g1 hlt⟩
  · intro hs h0
    exact ⟨g2 hs h0, g2 hs h0⟩
  · intro hs h0
    exact ⟨g3 hs h0, g3 hs h0⟩

theorem insertion_capacity_spec_witness :
    (⟨⟨some [7, 8, 9, 6]⟩, 4, 4⟩ : SimpleVector Nat).WF ∧
    2 ≤ (⟨⟨some [7, 8, 9, 6]⟩, 4, 4⟩ : SimpleVector Nat).GetSize ∧
    ∃ (it : Iterator) (v2 : SimpleVector Nat),
      (⟨⟨some [7, 8, 9, 6]⟩, 4, 4⟩ : SimpleVector Nat).Insert
        (next (⟨⟨some [7, 8, 9, 6]⟩, 4, 4⟩ : SimpleVector Nat).begin_ 2) (.value 5)
        = .ok (it, v2) :=
  ⟨by decide, by decide,
    (insertion_capacity_spec ⟨⟨some [7, 8, 9, 6]⟩, 4, 4⟩ (by decide) 5 2 (by decide)).imp
      (fun _ hv => hv.imp (fun _ hv2 => hv2.elim (fun _ hp => hp.1)))⟩

/-- With a left operand not longer than the right one, `operator==` compares
the left contents with the slots of the right operand at the same indices. -/
theorem operator_eq_of_le [DecidableEq T] (lhs rhs : SimpleVector T) (hl : lhs.WF) (hr : rhs.WF)
    (hs : lhs.m_size ≤ rhs.m_size) :
    operator_eq lhs rhs = .ok (decide (lhs.toList = rhs.toList.take lhs.m_size)) := by
  unfold operator_eq
  by_cases h0 : lhs.m_size = 0
  · simp [(begin_of_zero lhs h0).1, (begin_of_zero lhs h0).2, distance, std_equal, toList, h0]
  · rcases WF_cases lhs hl with ⟨hv, hc, hs0⟩ | ⟨blk, hv, hlen, hc, hsc⟩
    · omega
    · rcases WF_cases rhs hr with ⟨hv2, hc2, hs2⟩ | ⟨blk2, hv2, hlen2, hc2, hsc2⟩
      · omega
      · obtain ⟨hb, he⟩ := begin_of_pos lhs blk hv h0
        obtain ⟨hb2, _⟩ := begin_of_pos rhs blk2 hv2 (by omega)
        rw [hb, he, hb2, hv, hv2]
        simp only [distance, Nat.sub_zero]
        rw [std_equal_block blk blk2 lhs.m_size 0 0 (by omega) (by omega)]
        simp only [toList, slots, hv, hv2, Option.getD_some, List.drop_zero, List.take_take,
          Nat.min_eq_left hs]

theorem toList_eq_iff (lhs rhs : SimpleVector T) (hl : lhs.WF) (hr : rhs.WF)
    (hs : lhs.m_size = rhs.m_size) :
    lhs.toList = rhs.toList ↔
      ∀ i, i < lhs.m_size → ∃ x, lhs.subscript i = .ok x ∧ rhs.subscript i = .ok x := by
  constructor
  · intro he i hi
    obtain ⟨x, hx, hsx⟩ := subscript_of_toList lhs hl i hi
    refine ⟨x, hsx, ?_⟩
    rw [subscript_ok_iff rhs hr, ← he]
    exact hx
  · intro h
    apply List.ext_getElem?
    intro i
    by_cases hi : i < lhs.m_size
    · obtain ⟨x, h1, h2⟩ := h i hi
      rw [(subscript_ok_iff lhs hl i x).1 h1, (subscript_ok_iff rhs hr i x).1 h2]
    · rw [List.getElem?_eq_none (by rw [toList_length lhs hl]; omega),
        List.getElem?_eq_none (by rw [toList_length rhs hr]; omega)]

/-- C11: for two vectors of equal size, `lhs == rhs` is true exactly when
`lhs[i]` equals `rhs[i]` at every index below the size, and `lhs != rhs` is
its negation; two vectors built from the same initializer list compare equal,
and so do two empty vectors. -/
theorem operator_eq_spec [DecidableEq T] [Inhabited T] (lhs rhs : SimpleVector T)
    (hl : lhs.WF) (hr : rhs.WF) (hs : lhs.GetSize = rhs.GetSize) :
    (∃ b, operator_eq lhs rhs = .ok b ∧ operator_ne lhs rhs = .ok (!b) ∧
      (b = true ↔
        ∀ i, i < lhs.GetSize → ∃ x, lhs.subscript i = .ok x ∧ rhs.subscript i = .ok x)) ∧
    (∀ init : List T, operator_eq (FromList init) (FromList init) = .ok true) ∧
    (lhs.GetSize = 0 → operator_eq lhs rhs = .ok true) := by
  simp only [GetSize] at hs ⊢
  have hrt : rhs.toList.take lhs.m_size = rhs.toList := by
    rw [List.take_of_length_le (by rw [toList_length rhs hr]; omega)]
  have key := operator_eq_of_le lhs rhs hl hr (by omega)
  rw [hrt] at key
  refine ⟨⟨_, key, ?_, ?_⟩, ?_, ?_⟩
  · unfold operator_ne
    rw [key]; rfl
  · rw [decide_eq_true_iff]
    exact toList_eq_iff lhs rhs hl hr hs
  · intro init
    have hw := FromList_WF init
    rw [operator_eq_of_le _ _ hw hw (Nat.le_refl _),
      List.take_of_length_le (by rw [toList_length _ hw])]
    simp
  · intro h0
    rw [key]
    have h1 : lhs.toList = [] := by simp [toList, h0]
    have h2 : rhs.toList = [] := by simp [toList, ← hs, h0]
    rw [h1, h2]
    rfl

theorem operator_eq_spec_witness :
    (⟨⟨some [7, 8, 9, 0]⟩, 3, 4⟩ : SimpleVector Nat).WF ∧
    (⟨⟨some [7, 8, 9]⟩, 3, 3⟩ : SimpleVector Nat).WF ∧
    (⟨⟨some [7, 8, 9, 0]⟩, 3, 4⟩ : SimpleVector Nat).GetSize
      = (⟨⟨some [7, 8, 9]⟩, 3, 3⟩ : SimpleVector Nat).GetSize ∧
    ∃ b, operator_eq (⟨⟨some [7, 8, 9, 0]⟩, 3, 4⟩ : SimpleVector Nat) ⟨⟨some [7, 8, 9]⟩, 3, 3⟩
        = .ok b ∧
      operator_ne (⟨⟨some [7, 8, 9, 0]⟩, 3, 4⟩ : SimpleVector Nat) ⟨⟨some [7, 8, 9]⟩, 3, 3⟩
        = .ok (!b) :=
  ⟨by decide, by decide, by decide,
    (operator_eq_spec ⟨⟨some [7, 8, 9, 0]⟩, 3, 4⟩ ⟨⟨some [7, 8, 9]⟩, 3, 3⟩
      (by decide) (by decide) (by decide)).1.imp (fun _ hb => ⟨hb.1, hb.2.1⟩)⟩

/-- C20 at a failing input: the right operands `[1]` with hidden slot 2 and
`[1]` with hidden slot 3 (each left by `PopBack`) have the same size and the
same elements, yet `[1, 2] == rhs` is true for the first and false for the
second. -/
theorem operator_eq_at_failing_input :
    ((FromList [1, 2] : SimpleVector Nat).PopBack).WF ∧
    ((FromList [1, 3] : SimpleVector Nat).PopBack).WF ∧
    ((FromList [1, 2] : SimpleVector Nat).PopBack).GetSize
      = ((FromList [1, 3] : SimpleVector Nat).PopBack).GetSize ∧
    ((FromList [1, 2] : SimpleVector Nat).PopBack).toList
      = ((FromList [1, 3] : SimpleVector Nat).PopBack).toList ∧
    operator_eq (FromList [1, 2] : SimpleVector Nat) ((FromList [1, 2]).PopBack) = .ok true ∧
    operator_eq (FromList [1, 2] : SimpleVector Nat) ((FromList [1, 3]).PopBack) = .ok false :=
  ⟨by decide, by decide, by decide, by decide, rfl, rfl⟩

theorem toList_nil_of_zero (v : SimpleVector T) (h : v.m_size = 0) : v.toList = [] := by
  simp [toList, h]

theorem toList_ne_nil (v : SimpleVector T) (h : v.WF) (h0 : v.m_size ≠ 0) : v.toList ≠ [] := by
  intro he
  have := toList_length v h
  rw [he] at this
  exact h0 this.symm

/-- Under the invariant `operator<` is the lexicographic order of the logical
contents. -/
theorem operator_lt_lex [LinearOrder T] (lhs rhs : SimpleVector T) (hl : lhs.WF) (hr : rhs.WF) :
    ∃ b, operator_lt lhs rhs = .ok b ∧
      (b = true ↔ List.Lex (fun x y => x < y) lhs.toList rhs.toList) := by
  unfold operator_lt
  by_cases h0 : lhs.m_size = 0
  · rw [(begin_of_zero lhs h0).1, (begin_of_zero lhs h0).2, toList_nil_of_zero lhs h0]
    simp only [distance, std_lexicographical_compare, decide_True, Bool.true_and]
    refine ⟨_, rfl, ?_⟩
    by_cases h1 : rhs.m_size = 0
    · rw [(begin_of_zero rhs h1).1, (begin_of_zero rhs h1).2, toList_nil_of_zero rhs h1]
      simp
    · rcases WF_cases rhs hr with ⟨hv2, hc2, hs2⟩ | ⟨blk2, hv2, hlen2, hc2, hsc2⟩
      · omega
      · obtain ⟨hb2, he2⟩ := begin_of_pos rhs blk2 hv2 h1
        rw [hb2, he2]
        obtain ⟨y, l, hyl⟩ := List.exists_cons_of_ne_nil (toList_ne_nil rhs hr h1)
        rw [hyl]
        have : ¬ ((some 0 : Iterator) = some rhs.m_size) := by simp; omega
        simp [this, List.Lex.nil]
  · rcases WF_cases lhs hl with ⟨hv, hc, hs0⟩ | ⟨blk, hv, hlen, hc, hsc⟩
    · omega
    · obtain ⟨hb, he⟩ := begin_of_pos lhs blk hv h0
      rw [hb, he]
      simp only [distance, Nat.sub_zero]
      by_cases h1 : rhs.m_size = 0
      · rw [(begin_of_zero rhs h1).1, (begin_of_zero rhs h1).2, toList_nil_of_zero rhs h1]
        obtain ⟨k, hk⟩ : ∃ k, lhs.m_size = k + 1 := ⟨lhs.m_size - 1, by omega⟩
        rw [hk]
        refine ⟨false, ?_, by simp⟩
        simp only [std_lexicographical_compare]
        rw [if_neg (by simp)]
        simp
      · rcases WF_cases rhs hr with ⟨hv2, hc2, hs2⟩ | ⟨blk2, hv2, hlen2, hc2, hsc2⟩
        · omega
        · obtain ⟨hb2, he2⟩ := begin_of_pos rhs blk2 hv2 h1
          rw [hb2, he2, hv, hv2]
          have key := std_lexicographical_compare_block blk blk2 lhs.m_size rhs.m_size
            (by omega) (by omega) lhs.m_size 0 0 rfl (Nat.zero_le _) (Nat.zero_le _)
          simpa [toList, slots, hv, hv2] using key

/-- C12: over a linearly ordered element type `lhs < rhs` is true exactly when
the logical contents of `lhs` are lexicographically smaller than those of
`rhs`; `lhs > rhs` is `rhs < lhs`, `lhs <= rhs` is the negation of `rhs < lhs`
and `lhs >= rhs` is the negation of `lhs < rhs`; `[1,2,3] < [1,2,4]` and
`[1,2] < [1,2,3]`. -/
theorem operator_lt_spec [LinearOrder T] (lhs rhs : SimpleVector T) (hl : lhs.WF) (hr : rhs.WF) :
    (∃ b c, operator_lt lhs rhs = .ok b ∧
      (b = true ↔ List.Lex (fun x y => x < y) lhs.toList rhs.toList) ∧
      operator_lt rhs lhs = .ok c ∧
      (c = true ↔ List.Lex (fun x y => x < y) rhs.toList lhs.toList) ∧
      operator_gt lhs rhs = .ok c ∧
      operator_le lhs rhs = .ok (!c) ∧
      operator_ge lhs rhs = .ok (!b)) ∧
    operator_lt (FromList [1, 2, 3] : SimpleVector Nat) (FromList [1, 2, 4]) = .ok true ∧
    operator_lt (FromList [1, 2] : SimpleVector Nat) (FromList [1, 2, 3]) = .ok true := by
  obtain ⟨b, hb, hbl⟩ := operator_lt_lex lhs rhs hl hr
  obtain ⟨c, hc, hcl⟩ := operator_lt_lex rhs lhs hr hl
  refine ⟨⟨b, c, hb, hbl, hc, hcl, hc, ?_, ?_⟩, rfl, rfl⟩
  · unfold operator_le
    rw [hc]; rfl
  · unfold operator_ge
    rw [hb]; rfl

theorem operator_lt_spec_witness :
    (⟨⟨some [1, 2, 9]⟩, 2, 3⟩ : SimpleVector Nat).WF ∧
    (⟨⟨some [1, 2, 3]⟩, 3, 3⟩ : SimpleVector Nat).WF ∧
    ∃ b c, operator_lt (⟨⟨some [1, 2, 9]⟩, 2, 3⟩ : SimpleVector Nat) ⟨⟨some [1, 2, 3]⟩, 3, 3⟩
        = .ok b ∧
      operator_gt (⟨⟨some [1, 2, 9]⟩, 2, 3⟩ : SimpleVector Nat) ⟨⟨some [1, 2, 3]⟩, 3, 3⟩
        = .ok c :=
  ⟨by decide, by decide,
    (operator_lt_spec (⟨⟨some [1, 2, 9]⟩, 2, 3⟩ : SimpleVector Nat) ⟨⟨some [1, 2, 3]⟩, 3, 3⟩
      (by decide) (by decide)).1.imp
      (fun _ hb => hb.imp (fun _ hc => ⟨hc.1, hc.2.2.2.2.1⟩))⟩

/-- The invariant in terms of the pointer and the number of slots behind it. -/
theorem WF_iff_shape (v : SimpleVector T) :
    v.WF ↔ v.m_size ≤ v.m_capacity ∧
      v.m_vector.raw_ptr_.map List.length
        = if v.m_capacity = 0 then none else some v.m_capacity := by
  obtain ⟨⟨raw⟩, size, cap⟩ := v
  cases raw with
  | none =>
    simp only [WF, slots, Option.getD_none, List.length_nil, Option.isSome_none,
      Option.map_none']
    constructor
    · rintro ⟨h1, h2, _⟩
      exact ⟨h1, by rw [if_pos h2.symm]⟩
    · rintro ⟨h1, h2⟩
      by_cases hc : cap = 0
      · exact ⟨h1, hc.symm, by simp [hc]⟩
      · rw [if_neg hc] at h2
        cases h2
  | some blk =>
    simp only [WF, slots, Option.getD_some, Option.isSome_some, true_iff, Option.map_some']
    constructor
    · rintro ⟨h1, h2, h3⟩
      exact ⟨h1, by rw [if_neg h3, h2]⟩
    · rintro ⟨h1, h2⟩
      by_cases hc : cap = 0
      · rw [if_pos hc] at h2
        cases h2
      · rw [if_neg hc] at h2
        exact ⟨h1, Option.some.inj h2, hc⟩

theorem Resize_capacity_ge [Inhabited T] (v : SimpleVector T) (h : v.WF) (n : Nat) :
    n ≤ (v.Resize n).m_capacity := by
  have hc := Resize_GetCapacity v n
  have h1 := h.1
  simp only [GetCapacity] at hc
  rw [hc]
  split
  · omega
  · split <;> omega

theorem Insert_ok_WF [Inhabited T] (v v2 : SimpleVector T) (h : v.WF) (pos it : Iterator)
    (value : Arg T) (he : v.Insert pos value = .ok (it, v2)) : v2.WF := by
  cases value with
  | element p => exact absurd he ((Insert_element v pos p).1 _)
  | value x =>
    unfold Insert at he
    split at he
    · cases he
    · simp only [read_arg] at he
      injection he with he
      injection he with _ he
      subst he
      have hw := (WF_iff_shape _).1 (Resize_WF v h (v.m_size + 1))
      have hcap : v.m_size + 1 ≤ (v.Resize (v.m_size + 1)).m_capacity :=
        Resize_capacity_ge v h (v.m_size + 1)
      rw [WF_iff_shape]
      refine ⟨hcap, ?_⟩
      show (store (std_copy_backward _ _ _ _) _ _).raw_ptr_.map List.length = _
      rw [store_shape, std_copy_backward_shape]
      exact hw.2

theorem Erase_ok_WF (v v2 : SimpleVector T) (h : v.WF) (pos it : Iterator)
    (he : v.Erase pos = .ok (it, v2)) : v2.WF := by
  have hw := (WF_iff_shape v).1 h
  have key : v2 = ⟨Erase_loop v.end_ (distance (next pos 1) v.end_) pos (next pos 1) v.m_vector,
      v.m_size - 1, v.m_capacity⟩ := by
    unfold Erase at he
    split at he
    · cases he
    · dsimp only at he
      split at he
      · injection he with he
        injection he with _ he
        exact he.symm
      · injection he with he
        injection he with _ he
        exact he.symm
  rw [key, WF_iff_shape]
  refine ⟨by show v.m_size - 1 ≤ v.m_capacity; omega, ?_⟩
  show (Erase_loop _ _ _ _ _).raw_ptr_.map List.length = _
  rw [Erase_loop_shape]
  exact hw.2

theorem InsertMove_ok_WF [Inhabited T] (v v2 : SimpleVector T) (h : v.WF) (pos it : Iterator)
    (value moved : Arg T) (he : v.InsertMove pos value = .ok (it, v2, moved)) : v2.WF := by
  cases value with
  | element p => exact absurd he ((Insert_element v pos p).2 _)
  | value x =>
    rw [InsertMove_eq] at he
    cases hi : v.Insert pos (.value x) with
    | error e => rw [hi] at he; cases he
    | ok r =>
      rw [hi] at he
      obtain ⟨it2, v3⟩ := r
      injection he with he
      injection he with _ he
      injection he with he _
      subst he
      exact Insert_ok_WF v v3 h pos it2 _ hi

/-- Every constructor establishes the class invariant and every public
operation keeps it. -/
theorem WF_of_Reachable [Inhabited T] (v : SimpleVector T) (h : Reachable v) : v.WF := by
  induction h with
  | default_ctor => exact Default_WF
  | sized size => exact Sized_WF size
  | sized_with_value size value => exact SizedWithValue_WF size value
  | from_list init => exact FromList_WF init
  | reserving obj => exact Reserving_WF obj
  | copy_ctor _ ih => exact CopyCtor_WF _ ih
  | move_ctor _ ih => exact ih
  | move_ctor_source _ _ => exact Default_WF
  | copy_assign _ _ _ ih2 => exact CopyCtor_WF _ ih2
  | move_assign _ _ _ ih2 => exact ih2
  | move_assign_source _ _ ih1 _ => exact ih1
  | clear _ ih => exact truncate_WF _ ih 0 (Nat.zero_le _)
  | resize new_size _ ih => exact Resize_WF _ ih new_size
  | reserve new_capacity _ ih => exact Reserve_WF _ ih new_capacity
  | push_back _ he ih => exact PushBack_WF _ _ ih _ he
  | push_back_move _ he ih => exact PushBackMove_WF _ _ ih _ _ he
  | insert _ he ih => exact Insert_ok_WF _ _ ih _ _ _ he
  | insert_move _ he ih => exact InsertMove_ok_WF _ _ ih _ _ _ _ he
  | pop_back _ ih => rw [PopBack_eq]; exact truncate_WF _ ih _ (Nat.sub_le _ _)
  | erase _ he ih => exact Erase_ok_WF _ _ ih _ _ he
  | swap _ _ _ ih2 => exact ih2
  | swap_other _ _ ih1 _ => exact ih1
  | swap_rv _ _ _ ih2 => exact ih2
  | swap_rv_other _ _ ih1 _ => exact ih1

/-- C15: every vector produced by a constructor (default, sized,
sized-with-value, from-list, reserving, copy, move) and then by any sequence of
public operations that return (`Resize`, `Reserve`, `PushBack`, `Insert` and
`Erase` whose position assertion passes, `PopBack`, `Clear`, `swap`, copy and
move assignment) has `size <= capacity`, its capacity is the number of slots of the
owned block, and it holds no block exactly when the capacity is 0. -/
theorem Reachable_invariant [Inhabited T] (v : SimpleVector T) (h : Reachable v) :
    0 ≤ v.GetSize ∧ v.GetSize ≤ v.GetCapacity ∧
    v.slots.length = v.GetCapacity ∧
    (v.m_vector.toBool = false ↔ v.GetCapacity = 0) := by
  obtain ⟨h1, h2, h3⟩ := WF_of_Reachable v h
  refine ⟨Nat.zero_le _, h1, h2, ?_⟩
  simp only [ArrayPtr.toBool, GetCapacity]
  constructor
  · intro hn
    by_contra hc
    rw [h3.2 hc] at hn
    cases hn
  · intro hc
    cases hs : v.m_vector.raw_ptr_.isSome with
    | false => rfl
    | true => exact absurd hc (h3.1 hs)

theorem Reachable_invariant_witness :
    Reachable (⟨⟨some [7]⟩, 1, 1⟩ : SimpleVector Nat).PopBack ∧
    (⟨⟨some [7]⟩, 1, 1⟩ : SimpleVector Nat).PopBack.GetSize
      ≤ (⟨⟨some [7]⟩, 1, 1⟩ : SimpleVector Nat).PopBack.GetCapacity ∧
    (⟨⟨some [7]⟩, 1, 1⟩ : SimpleVector Nat).PopBack.slots.length
      = (⟨⟨some [7]⟩, 1, 1⟩ : SimpleVector Nat).PopBack.GetCapacity :=
  ⟨Reachable.pop_back
      (@Reachable.push_back Nat _ Default ⟨⟨some [7]⟩, 1, 1⟩ (Arg.value 7)
        Reachable.default_ctor rfl),
    (Reachable_invariant _
      (Reachable.pop_back
      (@Reachable.push_back Nat _ Default ⟨⟨some [7]⟩, 1, 1⟩ (Arg.value 7)
        Reachable.default_ctor rfl))).2.1,
    (Reachable_invariant (⟨⟨some [7]⟩, 1, 1⟩ : SimpleVector Nat).PopBack
      (Reachable.pop_back
      (@Reachable.push_back Nat _ Default ⟨⟨some [7]⟩, 1, 1⟩ (Arg.value 7)
        Reachable.default_ctor rfl))).2.2.1⟩

/-- The first list starts the second one exactly when it is the second one cut
at its length. -/
theorem eq_take_iff_append (l r : List T) :
    l = r.take l.length ↔ ∃ rest, r = l ++ rest := by
  constructor
  · intro h
    refine ⟨r.drop l.length, ?_⟩
    conv_lhs => rw [← List.take_append_drop l.length r]
    rw [← h]
  · rintro ⟨rest, rfl⟩
    rw [List.take_left]

/-- An empty left operand compares equal to every right operand. -/
theorem operator_eq_of_empty [DecidableEq T] (lhs rhs : SimpleVector T)
    (h0 : lhs.m_size = 0) : operator_eq lhs rhs = .ok true := by
  unfold operator_eq
  simp [(begin_of_zero lhs h0).1, (begin_of_zero lhs h0).2, distance, std_equal]

theorem subscript_take_iff (lhs rhs : SimpleVector T) (hl : lhs.WF) (hr : rhs.WF)
    (hs : lhs.m_size ≤ rhs.m_size) :
    lhs.toList = rhs.toList.take lhs.m_size ↔
      ∀ i, i < lhs.m_size → ∃ x, lhs.subscript i = .ok x ∧ rhs.subscript i = .ok x := by
  constructor
  · intro he i hi
    obtain ⟨x, hx, hsx⟩ := subscript_of_toList lhs hl i hi
    refine ⟨x, hsx, ?_⟩
    rw [subscript_ok_iff rhs hr, ← List.getElem?_take_of_lt hi, ← he]
    exact hx
  · intro h
    apply List.ext_getElem?
    intro i
    by_cases hi : i < lhs.m_size
    · obtain ⟨x, h1, h2⟩ := h i hi
      rw [(subscript_ok_iff lhs hl i x).1 h1, List.getElem?_take_of_lt hi,
        (subscript_ok_iff rhs hr i x).1 h2]
    · rw [List.getElem?_eq_none (by rw [toList_length lhs hl]; omega),
        List.getElem?_eq_none (by
          rw [List.length_take, toList_length rhs hr]; omega)]

/-- C21: for two vectors with `lhs.GetSize() <= rhs.GetSize()`, `lhs == rhs`
is true exactly when `lhs[i]` equals `rhs[i]` at every index below
`lhs.GetSize()`, that is, when the contents of `lhs` are a prefix of those of
`rhs`; the sizes are not compared: an empty `lhs` compares equal to every
`rhs`, and `[1] == [1, 2]` is true although the sizes differ. -/
theorem operator_eq_prefix_spec [DecidableEq T] (lhs rhs : SimpleVector T)
    (hl : lhs.WF) (hr : rhs.WF) (hs : lhs.GetSize ≤ rhs.GetSize) :
    (∃ b, operator_eq lhs rhs = .ok b ∧
      (b = true ↔
        ∀ i, i < lhs.GetSize → ∃ x, lhs.subscript i = .ok x ∧ rhs.subscript i = .ok x) ∧
      (b = true ↔ ∃ rest, rhs.toList = lhs.toList ++ rest)) ∧
    (∀ r : SimpleVector T, lhs.GetSize = 0 → operator_eq lhs r = .ok true) ∧
    (operator_eq (FromList [1] : SimpleVector Nat) (FromList [1, 2]) = .ok true ∧
      (FromList [1] : SimpleVector Nat).GetSize
        ≠ (FromList [1, 2] : SimpleVector Nat).GetSize) := by
  simp only [GetSize] at hs ⊢
  have key := operator_eq_of_le lhs rhs hl hr hs
  refine ⟨⟨_, key, ?_, ?_⟩, fun r h0 => operator_eq_of_empty lhs r h0, rfl, by decide⟩
  · rw [decide_eq_true_iff]
    exact subscript_take_iff lhs rhs hl hr hs
  · rw [decide_eq_true_iff]
    have := eq_take_iff_append lhs.toList rhs.toList
    rw [toList_length lhs hl] at this
    exact this

theorem operator_eq_prefix_spec_witness :
    (⟨⟨some [7, 8, 9, 0]⟩, 2, 4⟩ : SimpleVector Nat).WF ∧
    (⟨⟨some [7, 8, 9]⟩, 3, 3⟩ : SimpleVector Nat).WF ∧
    (⟨⟨some [7, 8, 9, 0]⟩, 2, 4⟩ : SimpleVector Nat).GetSize
      ≤ (⟨⟨some [7, 8, 9]⟩, 3, 3⟩ : SimpleVector Nat).GetSize ∧
    ∃ b, operator_eq (⟨⟨some [7, 8, 9, 0]⟩, 2, 4⟩ : SimpleVector Nat) ⟨⟨some [7, 8, 9]⟩, 3, 3⟩
        = .ok b ∧
      (b = true ↔ ∃ rest, (⟨⟨some [7, 8, 9]⟩, 3, 3⟩ : SimpleVector Nat).toList
        = (⟨⟨some [7, 8, 9, 0]⟩, 2, 4⟩ : SimpleVector Nat).toList ++ rest) :=
  ⟨by decide, by decide, by decide,
    (operator_eq_prefix_spec ⟨⟨some [7, 8, 9, 0]⟩, 2, 4⟩ ⟨⟨some [7, 8, 9]⟩, 3, 3⟩
      (by decide) (by decide) (by decide)).1.imp (fun _ hb => ⟨hb.1, hb.2.2⟩)⟩

end SimpleVector
